import Mathlib

/-!
Verification of the RAG core of the Inter-Compass service.

The TypeScript sources are shallowly embedded: text is `List Char`
(JS strings restricted to their character sequences), JS numbers are
exact rationals `ℚ` (the float special values NaN / ±Infinity are made
explicit through the `JSVal` type where the code can produce them), and
the external model provider, `Math.sqrt` and `Number.toFixed` are oracle
parameters.  Database effects are embedded as explicit operation lists
applied to an explicit store state.
-/

namespace InterCompass

/-- Text is modelled as its character sequence. -/
abbrev Str := List Char

/-- JS whitespace class (`\s`, and the set used by `String.trim`):
space, tab, LF, CR, VT, FF.  The rarer Unicode space code points are not
modelled; no claim depends on them. -/
def isWS (c : Char) : Bool :=
  c = ' ' || c = '\t' || c = '\n' || c = '\r' || c = '\x0b' || c = '\x0c'

/-- JS `String.prototype.trim`: drop whitespace from both ends. -/
def jsTrim (l : Str) : Str :=
  ((l.dropWhile isWS).reverse.dropWhile isWS).reverse

/-! ### `PDFProcessor.cleanText` (src/unnamed/part_017, lines 87-94)

The source applies five global replacements in order:
`\r\n → \n`, then `\n{3,} → \n\n`, then `[ \t]+ → " "`, then
`\u0000 → ""`, then `trim()`. -/

/-- Stage `.replace(/\r\n/g, '\n')`: left-to-right, non-overlapping. -/
def replaceCRLF : Str → Str
  | [] => []
  | [c] => [c]
  | c :: d :: rest =>
    if c = '\r' ∧ d = '\n' then '\n' :: replaceCRLF rest
    else c :: replaceCRLF (d :: rest)

/-- Emission of a finished newline run under `\n{3,} → \n\n`: a run of
three or more newlines becomes exactly two, shorter runs are kept. -/
def nlFlush (n : Nat) : Str :=
  if 3 ≤ n then ['\n', '\n'] else List.replicate n '\n'

/-- Scan for `.replace(/\n{3,}/g, '\n\n')`; `n` counts the newline run
currently being read. -/
def cnAux : Nat → Str → Str
  | n, [] => nlFlush n
  | n, c :: rest =>
    if c = '\n' then cnAux (n + 1) rest
    else nlFlush n ++ c :: cnAux 0 rest

/-- Stage `.replace(/\n{3,}/g, '\n\n')`: each maximal run of three or more
newlines becomes exactly two; shorter runs are kept. -/
def collapseNewlines (l : Str) : Str := cnAux 0 l

/-- A character matched by `[ \t]`. -/
def isSpTab (c : Char) : Bool := c = ' ' || c = '\t'

/-- Scan for `.replace(/[ \t]+/g, ' ')`; the flag records whether the
scanner is inside a space/tab run (whose single `' '` was already
emitted at the run's first character). -/
def csAux : Bool → Str → Str
  | _, [] => []
  | b, c :: rest =>
    if isSpTab c then (if b then [] else [' ']) ++ csAux true rest
    else c :: csAux false rest

/-- Stage `.replace(/[ \t]+/g, ' ')`: each maximal run of spaces/tabs becomes
a single space. -/
def collapseSpaces (l : Str) : Str := csAux false l

/-- Stage `.replace(/\u0000/g, '')`. -/
def removeNulls (l : Str) : Str := l.filter (fun c => c ≠ '\x00')

/-- `PDFProcessor.cleanText`, the extractor's text normalization. -/
def cleanText (l : Str) : Str :=
  jsTrim (removeNulls (collapseSpaces (collapseNewlines (replaceCRLF l))))

example : cleanText "a \x00 b".toList = "a  b".toList := by decide
example : cleanText (cleanText "a \x00 b".toList) = "a b".toList := by decide
example : cleanText "a\r\r\nb".toList = "a\r\nb".toList := by decide

/-! ### Normal-form predicates for the `cleanText` stages -/

/-- No three consecutive newlines anywhere in the text. -/
def noNl3 (l : Str) : Prop := ∀ s : Str, s <:+: l → s.take 3 ≠ ['\n', '\n', '\n']

/-- No two consecutive spaces anywhere in the text. -/
def noDblSp (l : Str) : Prop := ∀ s : Str, s <:+: l → s.take 2 ≠ [' ', ' ']

theorem noNl3_nil : noNl3 [] := by
  intro s hs
  simp [List.infix_nil] at hs
  simp [hs]

theorem noDblSp_nil : noDblSp [] := by
  intro s hs
  simp [List.infix_nil] at hs
  simp [hs]

theorem noNl3_mono {l m : Str} (h : m <:+: l) (hl : noNl3 l) : noNl3 m :=
  fun s hs => hl s (hs.trans h)

theorem noDblSp_mono {l m : Str} (h : m <:+: l) (hl : noDblSp l) : noDblSp m :=
  fun s hs => hl s (hs.trans h)

theorem take_congr_pre {s t : Str} (h : s <+: t) (n : Nat)
    (hn : n ≤ s.length) : s.take n = t.take n := by
  obtain ⟨u, rfl⟩ := h
  rw [List.take_append_of_le_length hn]

theorem noNl3_cons {c : Char} {l : Str} :
    noNl3 (c :: l) ↔ (c :: l).take 3 ≠ ['\n', '\n', '\n'] ∧ noNl3 l := by
  constructor
  · intro h
    exact ⟨h _ (List.infix_refl _), noNl3_mono (List.infix_cons (List.infix_refl _)) h⟩
  · rintro ⟨h1, h2⟩ s hs
    rcases (List.infix_cons_iff).1 hs with hpre | hinf
    · intro hcon
      have hlen : 3 ≤ s.length := by
        have := congrArg List.length hcon
        simp at this
        omega
      rw [take_congr_pre hpre 3 hlen] at hcon
      exact h1 hcon
    · exact h2 s hinf

theorem noDblSp_cons {c : Char} {l : Str} :
    noDblSp (c :: l) ↔ (c :: l).take 2 ≠ [' ', ' '] ∧ noDblSp l := by
  constructor
  · intro h
    exact ⟨h _ (List.infix_refl _), noDblSp_mono (List.infix_cons (List.infix_refl _)) h⟩
  · rintro ⟨h1, h2⟩ s hs
    rcases (List.infix_cons_iff).1 hs with hpre | hinf
    · intro hcon
      have hlen : 2 ≤ s.length := by
        have := congrArg List.length hcon
        simp at this
        omega
      rw [take_congr_pre hpre 2 hlen] at hcon
      exact h1 hcon
    · exact h2 s hinf

theorem noNl3_of_short {l : Str} (h : l.length ≤ 2) : noNl3 l := by
  intro s hs hcon
  have h1 : s.length ≤ l.length := hs.length_le
  have h2 : 3 ≤ s.length := by
    have := congrArg List.length hcon
    simp at this
    omega
  omega

/-! ### Stage lemmas: `replaceCRLF` -/

theorem replaceCRLF_sublist : ∀ l : Str, List.Sublist (replaceCRLF l) l := by
  intro l
  induction l using replaceCRLF.induct with
  | case1 => simp [replaceCRLF]
  | case2 c => simp [replaceCRLF]
  | case3 c d rest hcd ih =>
    rw [replaceCRLF, if_pos hcd]
    obtain ⟨rfl, rfl⟩ := hcd
    exact (ih.cons₂ '\n').cons '\r'
  | case4 c d rest hcd ih =>
    rw [replaceCRLF, if_neg hcd]
    exact ih.cons₂ c

theorem replaceCRLF_eq_self : ∀ l : Str, '\r' ∉ l → replaceCRLF l = l := by
  intro l
  induction l using replaceCRLF.induct with
  | case1 => simp [replaceCRLF]
  | case2 c => simp [replaceCRLF]
  | case3 c d rest hcd ih =>
    intro hm
    exact absurd (hcd.1 ▸ List.mem_cons_self c (d :: rest)) hm
  | case4 c d rest hcd ih =>
    intro hm
    rw [replaceCRLF, if_neg hcd, ih (fun hc => hm (List.mem_cons_of_mem _ hc))]

/-! ### Stage lemmas: `collapseNewlines` -/

theorem nlFlush_all_nl {c : Char} {n : Nat} (h : c ∈ nlFlush n) : c = '\n' := by
  unfold nlFlush at h
  split at h
  · simpa using h
  · exact List.eq_of_mem_replicate h

theorem nlFlush_short (n : Nat) : (nlFlush n).length ≤ max n 2 := by
  unfold nlFlush
  split
  · simp
  · simp [Nat.le_max_left]

theorem mem_cnAux {c : Char} : ∀ (l : Str) (n : Nat), c ∈ cnAux n l → c ∈ l ∨ c = '\n' := by
  intro l
  induction l with
  | nil =>
    intro n h
    exact Or.inr (nlFlush_all_nl (by simpa [cnAux] using h))
  | cons d rest ih =>
    intro n h
    rw [cnAux] at h
    by_cases hd : d = '\n'
    · simp only [hd, if_pos rfl] at h
      rcases ih _ h with h1 | h1
      · exact Or.inl (List.mem_cons_of_mem _ h1)
      · exact Or.inr h1
    · simp only [if_neg hd] at h
      rcases List.mem_append.1 h with h1 | h1
      · exact Or.inr (nlFlush_all_nl h1)
      · rcases List.mem_cons.1 h1 with h2 | h2
        · exact Or.inl (h2 ▸ List.mem_cons_self _ _)
        · rcases ih _ h2 with h3 | h3
          · exact Or.inl (List.mem_cons_of_mem _ h3)
          · exact Or.inr h3

theorem noNl3_run_append {k : Nat} {d : Char} {X : Str} (hk : k ≤ 2) (hd : d ≠ '\n')
    (hX : noNl3 X) : noNl3 (List.replicate k '\n' ++ (d :: X)) := by
  have base : noNl3 (d :: X) := by
    rw [noNl3_cons]
    refine ⟨?_, hX⟩
    cases X <;> simp [List.take] <;> intro hcon <;> simp_all
  interval_cases k
  · simpa using base
  · rw [show List.replicate 1 '\n' ++ (d :: X) = '\n' :: d :: X by simp, noNl3_cons]
    refine ⟨?_, base⟩
    cases X <;> simp [List.take] <;> intro hcon <;> simp_all
  · rw [show List.replicate 2 '\n' ++ (d :: X) = '\n' :: '\n' :: d :: X by simp, noNl3_cons]
    constructor
    · simp [List.take, hd]
    · rw [noNl3_cons]
      refine ⟨?_, base⟩
      cases X <;> simp [List.take] <;> intro hcon <;> simp_all

theorem cnAux_noNl3 : ∀ (l : Str) (n : Nat), noNl3 (cnAux n l) := by
  intro l
  induction l with
  | nil =>
    intro n
    rw [cnAux]
    refine noNl3_of_short ?_
    unfold nlFlush
    split
    · simp
    · simp
      omega
  | cons d rest ih =>
    intro n
    rw [cnAux]
    by_cases hd : d = '\n'
    · simpa [hd] using ih (n + 1)
    · rw [if_neg hd]
      have hrep : ∃ k ≤ 2, nlFlush n = List.replicate k '\n' := by
        unfold nlFlush
        split
        · exact ⟨2, by omega, by simp [List.replicate]⟩
        · exact ⟨n, by omega, rfl⟩
      obtain ⟨k, hk, hkeq⟩ := hrep
      rw [hkeq]
      exact noNl3_run_append hk hd (ih 0)

theorem cnAux_eq_self : ∀ (l : Str) (n : Nat),
    noNl3 (List.replicate n '\n' ++ l) → cnAux n l = List.replicate n '\n' ++ l := by
  intro l
  induction l with
  | nil =>
    intro n h
    have hn : n ≤ 2 := by
      by_contra hc
      refine h (List.replicate n '\n') (List.infix_refl _ |>.trans (by simp)) ?_
      rw [List.take_replicate, inf_eq_left.2 (show 3 ≤ n by omega)]
      rfl
    rw [cnAux]
    unfold nlFlush
    rw [if_neg (by omega)]
    simp
  | cons d rest ih =>
    intro n h
    rw [cnAux]
    by_cases hd : d = '\n'
    · subst hd
      rw [if_pos rfl, ih (n + 1) (by rwa [List.replicate_succ', List.append_assoc, List.singleton_append]),
        List.replicate_succ', List.append_assoc, List.singleton_append]
    · rw [if_neg hd]
      have hn : n ≤ 2 := by
        by_contra hc
        refine h (List.replicate n '\n') ((List.prefix_append _ _).isInfix) ?_
        rw [List.take_replicate, inf_eq_left.2 (show 3 ≤ n by omega)]
        rfl
      have hrest : noNl3 rest := by
        refine noNl3_mono ?_ h
        exact ⟨List.replicate n '\n' ++ [d], [], by simp⟩
      rw [ih 0 (by simpa using hrest)]
      unfold nlFlush
      rw [if_neg (by omega)]
      simp

/-! ### Stage lemmas: `collapseSpaces` -/

theorem mem_csAux {c : Char} : ∀ (l : Str) (b : Bool),
    c ∈ csAux b l → (c ∈ l ∧ isSpTab c = false) ∨ c = ' ' := by
  intro l
  induction l with
  | nil =>
    intro b h
    rw [csAux] at h
    simp at h
  | cons d rest ih =>
    intro b h
    rw [csAux] at h
    by_cases hd : isSpTab d
    · rw [if_pos hd] at h
      rcases List.mem_append.1 h with h1 | h1
      · cases b
        · simp at h1
          exact Or.inr h1
        · simp at h1
      · rcases ih true h1 with ⟨hm, hs⟩ | hsp
        · exact Or.inl ⟨List.mem_cons_of_mem _ hm, hs⟩
        · exact Or.inr hsp
    · rw [if_neg hd] at h
      rcases List.mem_cons.1 h with h1 | h1
      · subst h1
        exact Or.inl ⟨List.mem_cons_self _ _, by simpa using hd⟩
      · rcases ih false h1 with ⟨hm, hs⟩ | hsp
        · exact Or.inl ⟨List.mem_cons_of_mem _ hm, hs⟩
        · exact Or.inr hsp

theorem csAux_true_head : ∀ (l : Str) (c : Char),
    (csAux true l).head? = some c → isSpTab c = false := by
  intro l
  induction l with
  | nil =>
    intro c h
    rw [csAux] at h
    simp at h
  | cons d rest ih =>
    intro c h
    rw [csAux] at h
    by_cases hd : isSpTab d
    · rw [if_pos hd] at h
      exact ih c (by simpa using h)
    · rw [if_neg hd] at h
      simp at h
      rw [← h]
      simpa using hd

theorem csAux_false_headq : ∀ l : Str,
    (csAux false l).head? = l.head?.map (fun c => if isSpTab c then ' ' else c) := by
  intro l
  cases l with
  | nil => rw [csAux]; rfl
  | cons d rest =>
    rw [csAux]
    by_cases hd : isSpTab d
    · simp [hd]
    · simp [hd]

theorem csAux_noDbl : ∀ (l : Str) (b : Bool), noDblSp (csAux b l) := by
  intro l
  induction l with
  | nil =>
    intro b
    rw [csAux]
    exact noDblSp_nil
  | cons d rest ih =>
    intro b
    rw [csAux]
    by_cases hd : isSpTab d
    · rw [if_pos hd]
      cases b
      · simp only [Bool.false_eq_true, if_neg (by simp : ¬ False)]
        rw [List.singleton_append]
        rw [noDblSp_cons]
        refine ⟨?_, ih true⟩
        cases hX : csAux true rest with
        | nil => simp
        | cons e Y =>
          have he : isSpTab e = false := csAux_true_head rest e (by rw [hX]; rfl)
          have he' : e ≠ ' ' := by
            intro hc
            rw [hc] at he
            simp [isSpTab] at he
          simp [List.take_succ_cons, he']
      · simpa using ih true
    · rw [if_neg hd]
      rw [noDblSp_cons]
      have hd' : d ≠ ' ' := by
        intro hc
        rw [hc] at hd
        simp [isSpTab] at hd
      exact ⟨by simp [List.take_succ_cons, hd'], ih false⟩

theorem csAux_noTab : ∀ (l : Str) (b : Bool), '\t' ∉ csAux b l := by
  intro l b h
  rcases mem_csAux l b h with ⟨_, hs⟩ | hsp
  · simp [isSpTab] at hs
  · simp at hsp

theorem csAux_noNl3 : ∀ (l : Str) (b : Bool), noNl3 l → noNl3 (csAux b l) := by
  intro l
  induction l with
  | nil =>
    intro b _
    rw [csAux]
    exact noNl3_nil
  | cons d rest ih =>
    intro b h
    have ht : noNl3 rest := (noNl3_cons.1 h).2
    rw [csAux]
    by_cases hd : isSpTab d
    · rw [if_pos hd]
      cases b
      · simp only [Bool.false_eq_true, if_neg (by simp : ¬ False)]
        rw [List.singleton_append, noNl3_cons]
        exact ⟨by simp [List.take_succ_cons], ih true ht⟩
      · simpa using ih true ht
    · rw [if_neg hd, noNl3_cons]
      refine ⟨?_, ih false ht⟩
      by_cases hdn : d = '\n'
      · subst hdn
        cases rest with
        | nil =>
          rw [csAux]
          simp
        | cons e r =>
          by_cases he : isSpTab e
          · rw [csAux, if_pos he]
            simp only [Bool.false_eq_true, if_neg (by simp : ¬ False)]
            rw [List.singleton_append]
            simp [List.take_succ_cons]
          · by_cases hen : e = '\n'
            · subst hen
              rw [csAux, if_neg he]
              have hr : r.head? ≠ some '\n' := by
                intro hc
                refine (noNl3_cons.1 h).1 ?_
                cases r with
                | nil => simp at hc
                | cons f s =>
                  simp at hc
                  subst hc
                  rfl
              cases hcr : csAux false r with
              | nil => simp [List.take_succ_cons]
              | cons f s =>
                have hf : f ≠ '\n' := by
                  intro hc
                  subst hc
                  have hhead := csAux_false_headq r
                  rw [hcr] at hhead
                  cases r with
                  | nil => simp at hhead
                  | cons g t =>
                    simp only [List.head?_cons, Option.map_some] at hhead
                    have h1 : (if isSpTab g then ' ' else g) = '\n' := by
                      simpa using hhead.symm
                    by_cases hg : isSpTab g
                    · rw [if_pos hg] at h1
                      simp at h1
                    · rw [if_neg hg] at h1
                      exact hr (by rw [h1]; rfl)
                simp [List.take_succ_cons, hf]
            · rw [csAux, if_neg he]
              simp [List.take_succ_cons, hen]
      · simp [List.take_succ_cons, hdn]

theorem csAux_eq_self : ∀ l : Str, '\t' ∉ l → noDblSp l → csAux false l = l := by
  intro l
  induction l with
  | nil =>
    intro _ _
    rw [csAux]
  | cons d rest ih =>
    intro htab hdbl
    have htab' : '\t' ∉ rest := fun hc => htab (List.mem_cons_of_mem _ hc)
    have hdbl' : noDblSp rest := (noDblSp_cons.1 hdbl).2
    rw [csAux]
    by_cases hd : isSpTab d
    · have hd' : d = ' ' := by
        rcases (by simpa [isSpTab] using hd : d = ' ' ∨ d = '\t') with h1 | h1
        · exact h1
        · exact absurd (h1 ▸ List.mem_cons_self _ _) htab
      subst hd'
      rw [if_pos hd]
      simp only [Bool.false_eq_true, if_neg (by simp : ¬ False)]
      rw [List.singleton_append]
      cases rest with
      | nil =>
        rw [csAux]
      | cons e r =>
        have he : ¬ isSpTab e = true := by
          intro hsp
          rcases (by simpa [isSpTab] using hsp : e = ' ' ∨ e = '\t') with h1 | h1
          · subst h1
            exact (noDblSp_cons.1 hdbl).1 rfl
          · exact htab' (h1 ▸ List.mem_cons_self _ _)
        rw [csAux, if_neg he]
        rw [show e :: csAux false r = csAux false (e :: r) by rw [csAux, if_neg he]]
        rw [ih htab' hdbl']
    · rw [if_neg hd, ih htab' hdbl']

/-! ### Stage lemmas: `jsTrim` and `removeNulls` -/

theorem jsTrim_within (l : Str) : jsTrim l <:+: l := by
  unfold jsTrim
  have h1 : List.dropWhile isWS l <:+ l := List.dropWhile_suffix _
  have h2 : List.dropWhile isWS (List.dropWhile isWS l).reverse <:+
      (List.dropWhile isWS l).reverse := List.dropWhile_suffix _
  have h3 : (List.dropWhile isWS (List.dropWhile isWS l).reverse).reverse <+:
      List.dropWhile isWS l := by
    have := (@List.reverse_prefix _
      (List.dropWhile isWS (List.dropWhile isWS l).reverse)
      ((List.dropWhile isWS l).reverse)).2 h2
    simpa using this
  exact h3.isInfix.trans h1.isInfix

theorem mem_jsTrim {c : Char} {l : Str} (h : c ∈ jsTrim l) : c ∈ l :=
  (jsTrim_within l).sublist.subset h

theorem head_not_ws_of_trim {l : Str} {c : Char}
    (h : (jsTrim l).head? = some c) : isWS c = false := by
  unfold jsTrim at h
  have h2 : (List.dropWhile isWS (List.dropWhile isWS l).reverse).reverse <+:
      List.dropWhile isWS l := by
    have := (@List.reverse_prefix _
      (List.dropWhile isWS (List.dropWhile isWS l).reverse)
      ((List.dropWhile isWS l).reverse)).2 (List.dropWhile_suffix _)
    simpa using this
  obtain ⟨t, ht⟩ := h2
  have hA : (List.dropWhile isWS l).head? = some c := by
    rw [← ht]
    cases hx : (List.dropWhile isWS (List.dropWhile isWS l).reverse).reverse with
    | nil => rw [hx] at h; simp at h
    | cons x xs =>
      rw [hx] at h
      simp at h
      simp [h]
  have := List.head?_dropWhile_not isWS l
  rw [hA] at this
  exact this

theorem last_not_ws_of_trim {l : Str} {c : Char}
    (h : (jsTrim l).getLast? = some c) : isWS c = false := by
  unfold jsTrim at h
  rw [List.getLast?_reverse] at h
  have := List.head?_dropWhile_not isWS (List.dropWhile isWS l).reverse
  rw [h] at this
  exact this

theorem jsTrim_eq_self {l : Str} (h1 : ∀ c, l.head? = some c → isWS c = false)
    (h2 : ∀ c, l.getLast? = some c → isWS c = false) : jsTrim l = l := by
  unfold jsTrim
  have e1 : List.dropWhile isWS l = l := by
    cases l with
    | nil => rfl
    | cons d rest => rw [List.dropWhile_cons, if_neg (by simp [h1 d rfl])]
  rw [e1]
  have e2 : List.dropWhile isWS l.reverse = l.reverse := by
    cases hr : l.reverse with
    | nil => rfl
    | cons d rest =>
      have hd : l.getLast? = some d := by
        rw [← List.head?_reverse, hr]
        rfl
      rw [List.dropWhile_cons, if_neg (by simp [h2 d hd])]
  rw [e2, List.reverse_reverse]

theorem jsTrim_idem (l : Str) : jsTrim (jsTrim l) = jsTrim l :=
  jsTrim_eq_self (fun _ h => head_not_ws_of_trim h) (fun _ h => last_not_ws_of_trim h)

theorem removeNulls_eq_self {l : Str} (h : '\x00' ∉ l) : removeNulls l = l := by
  refine List.filter_eq_self.2 (fun a ha => ?_)
  simp only [ne_eq, decide_eq_true_eq]
  intro hc
  subst hc
  exact h ha

/-! ### Idempotence of `cleanText` on NUL- and CR-free inputs -/

theorem mem_stage {c : Char} {t : Str}
    (h : c ∈ collapseSpaces (collapseNewlines (replaceCRLF t))) :
    c ∈ t ∨ c = '\n' ∨ c = ' ' := by
  unfold collapseSpaces collapseNewlines at h
  rcases mem_csAux _ _ h with ⟨h1, -⟩ | h1
  · rcases mem_cnAux _ _ h1 with h2 | h2
    · exact Or.inl ((replaceCRLF_sublist t).subset h2)
    · exact Or.inr (Or.inl h2)
  · exact Or.inr (Or.inr h1)

theorem cleanText_idem {t : Str} (hr : '\r' ∉ t) (h0 : '\x00' ∉ t) :
    cleanText (cleanText t) = cleanText t := by
  set S := collapseSpaces (collapseNewlines (replaceCRLF t)) with hSdef
  have h0S : '\x00' ∉ S := by
    intro hc
    rcases mem_stage hc with h | h | h
    · exact h0 h
    · exact absurd h (by decide)
    · exact absurd h (by decide)
  have hcleanS : cleanText t = jsTrim S := by
    unfold cleanText
    rw [removeNulls_eq_self h0S]
  have hmem_o : ∀ c, c ∈ jsTrim S → c ∈ t ∨ c = '\n' ∨ c = ' ' :=
    fun _ hc => mem_stage (mem_jsTrim hc)
  have hr_o : '\r' ∉ jsTrim S := by
    intro hc
    rcases hmem_o _ hc with h | h | h
    · exact hr h
    · exact absurd h (by decide)
    · exact absurd h (by decide)
  have h0_o : '\x00' ∉ jsTrim S := by
    intro hc
    rcases hmem_o _ hc with h | h | h
    · exact h0 h
    · exact absurd h (by decide)
    · exact absurd h (by decide)
  have hN3 : noNl3 (jsTrim S) := by
    refine noNl3_mono (jsTrim_within S) ?_
    rw [hSdef]
    exact csAux_noNl3 _ false (cnAux_noNl3 _ 0)
  have hTab : '\t' ∉ jsTrim S := by
    intro hc
    have := mem_jsTrim hc
    rw [hSdef] at this
    exact csAux_noTab _ false this
  have hDbl : noDblSp (jsTrim S) := by
    refine noDblSp_mono (jsTrim_within S) ?_
    rw [hSdef]
    exact csAux_noDbl _ false
  rw [hcleanS]
  unfold cleanText
  rw [replaceCRLF_eq_self _ hr_o]
  rw [show collapseNewlines (jsTrim S) = jsTrim S from by
        have := cnAux_eq_self (jsTrim S) 0 (by simpa using hN3)
        simpa [collapseNewlines] using this]
  rw [show collapseSpaces (jsTrim S) = jsTrim S from csAux_eq_self _ hTab hDbl]
  rw [removeNulls_eq_self h0_o]
  exact jsTrim_idem S

/-- Claim C6 counterexample: text normalization is not idempotent as
claimed.  The NUL stripping runs after space collapsing, so
"a \x00 b" normalizes to "a  b" (double space) which normalizes again
to "a b"; likewise NUL-free "a\r\r\nb" normalizes to "a\r\nb" (a new
CRLF pair) which normalizes again to "a\nb". -/
theorem claim6_counterexample :
    cleanText (cleanText ['a', ' ', '\x00', ' ', 'b']) ≠
      cleanText ['a', ' ', '\x00', ' ', 'b'] ∧
    cleanText (cleanText ['a', '\r', '\r', '\n', 'b']) ≠
      cleanText ['a', '\r', '\r', '\n', 'b'] := by
  constructor
  · decide
  · decide

/-- Claim C6 (amended): the extractor's text normalization is idempotent
on every input containing no NUL and no carriage-return character;
`cleanText (cleanText t) = cleanText t` for all such `t`.  (In general
it is not idempotent: removing NUL characters after whitespace
collapsing, or rewriting CR CR LF to CR LF, can create new collapsible
runs, as the counterexample shows.) -/
theorem claim6_normalize_idem (t : Str) (hr : '\r' ∉ t) (h0 : '\x00' ∉ t) :
    cleanText (cleanText t) = cleanText t :=
  cleanText_idem hr h0

/-- Witness for C6: a concrete NUL- and CR-free input. -/
theorem claim6_witness :
    ('\r' ∉ ("x \t y\n\n\n z".toList : Str)) ∧
    cleanText (cleanText "x \t y\n\n\n z".toList) = cleanText "x \t y\n\n\n z".toList :=
  ⟨by decide, claim6_normalize_idem _ (by decide) (by decide)⟩

/-! ### JS numbers and `EmbeddingService.cosineSimilarity`
(src/src/services/embeddingService.ts, lines 91-107)

JS floating-point numbers are idealized as exact rationals; the special
values NaN and ±Infinity, which the division in `cosineSimilarity` can
produce, are made explicit in `JSVal`.  `Math.sqrt` (irrational-valued,
hence not representable on `ℚ`) is an oracle parameter `sqrtq`;
theorems assume of it only the facts true of the float `Math.sqrt`
that they actually need (`sqrtq 0 = 0`, positivity on positives). -/

/-- A JS number: finite, NaN, or an infinity. -/
inductive JSVal where
  | num (q : ℚ)
  | nan
  | posInf
  | negInf
  deriving DecidableEq, Repr

/-- JS division `a / b` of finite operands. -/
def jsDiv (a b : ℚ) : JSVal :=
  if b = 0 then (if a = 0 then .nan else if 0 < a then .posInf else .negInf)
  else .num (a / b)

/-- JS comparison `v >= c` (finite `c`): any comparison with NaN is false. -/
def jsGe (v : JSVal) (c : ℚ) : Bool :=
  match v with
  | .num x => decide (c ≤ x)
  | .nan => false
  | .posInf => true
  | .negInf => false

/-- An embedding vector (`number[]`). -/
abbrev Vec := List ℚ

/-- The dot-product accumulation of the `cosineSimilarity` loop. -/
def dotProduct : Vec → Vec → ℚ
  | a :: v, b :: w => a * b + dotProduct v w
  | _, _ => 0

/-- The squared-norm accumulation (`norm1`, `norm2`) of the loop. -/
def normSq (v : Vec) : ℚ := dotProduct v v

/-- `EmbeddingService.cosineSimilarity`: throws on a dimension mismatch,
otherwise returns `dot / (sqrt(norm1) * sqrt(norm2))` with no
divide-by-zero guard. -/
def cosineSimilarity (sqrtq : ℚ → ℚ) (v w : Vec) : Except String JSVal :=
  if v.length ≠ w.length then .error "Embeddings must have the same dimension"
  else .ok (jsDiv (dotProduct v w) (sqrtq (normSq v) * sqrtq (normSq w)))

theorem normSq_nonneg (v : Vec) : 0 ≤ normSq v := by
  induction v with
  | nil => simp [normSq, dotProduct]
  | cons a w ih =>
    have : normSq (a :: w) = a * a + normSq w := rfl
    rw [this]
    nlinarith [sq_nonneg a]

theorem all_zero_of_normSq_eq_zero {v : Vec} (h : normSq v = 0) : ∀ a ∈ v, a = 0 := by
  induction v with
  | nil => simp
  | cons a w ih =>
    have he : normSq (a :: w) = a * a + normSq w := rfl
    rw [he] at h
    have h1 : 0 ≤ a * a := mul_self_nonneg a
    have h2 : 0 ≤ normSq w := normSq_nonneg w
    have ha : a = 0 := by nlinarith
    have hw : normSq w = 0 := by nlinarith
    intro b hb
    rcases List.mem_cons.1 hb with rfl | hb
    · exact ha
    · exact ih hw b hb

theorem dotProduct_zero_left {v w : Vec} (h : ∀ a ∈ v, a = 0) : dotProduct v w = 0 := by
  induction v generalizing w with
  | nil => cases w <;> rfl
  | cons a v' ih =>
    cases w with
    | nil => rfl
    | cons b w' =>
      have : dotProduct (a :: v') (b :: w') = a * b + dotProduct v' w' := rfl
      rw [this, h a (List.mem_cons_self _ _), ih (fun x hx => h x (List.mem_cons_of_mem _ hx))]
      ring

theorem dotProduct_zero_right {v w : Vec} (h : ∀ a ∈ w, a = 0) : dotProduct v w = 0 := by
  induction v generalizing w with
  | nil => cases w <;> rfl
  | cons a v' ih =>
    cases w with
    | nil => rfl
    | cons b w' =>
      have : dotProduct (a :: v') (b :: w') = a * b + dotProduct v' w' := rfl
      rw [this, h b (List.mem_cons_self _ _), ih (fun x hx => h x (List.mem_cons_of_mem _ hx))]
      ring

/-- Claim C10: for every pair of input vectors of unequal length,
`cosineSimilarity` raises an error (the code throws
"Embeddings must have the same dimension") and never returns a numeric
score. -/
theorem claim10_dim_mismatch_error (sqrtq : ℚ → ℚ) (v w : Vec)
    (h : v.length ≠ w.length) :
    cosineSimilarity sqrtq v w = .error "Embeddings must have the same dimension" := by
  unfold cosineSimilarity
  rw [if_pos h]

/-- Witness for C10 at the concrete input `[1]`, `[]`. -/
theorem claim10_witness :
    (([(1 : ℚ)] : Vec).length ≠ ([] : Vec).length) ∧
    cosineSimilarity (fun q => q) [(1 : ℚ)] [] =
      .error "Embeddings must have the same dimension" :=
  ⟨by decide, claim10_dim_mismatch_error (fun q => q) [(1 : ℚ)] [] (by decide)⟩

/-- Claim C5 counterexample: on zero vectors the code computes `0 / 0`,
which is NaN, not the value 0 the claim states (there is no
divide-by-zero guard in `cosineSimilarity`).  The square-root oracle
used is the identity, which does satisfy `sqrt 0 = 0`. -/
theorem claim5_counterexample :
    ((fun q : ℚ => q) 0 = 0) ∧
    cosineSimilarity (fun q => q) [(0 : ℚ)] [(0 : ℚ)] = .ok .nan ∧
    (Except.ok JSVal.nan ≠ (.ok (.num 0) : Except String JSVal)) := by
  refine ⟨rfl, ?_, by simp⟩
  norm_num [cosineSimilarity, jsDiv, normSq, dotProduct]

/-- Claim C5 (amended): `cosineSimilarity` is total on equal-length
vectors, but when the cosine denominator is zero it returns NaN, not 0:
the denominator is zero exactly when one of the vectors has zero norm,
and then the result is `.nan` (because the dot product is then also
zero, giving `0 / 0`).  When the denominator is nonzero the result is
the finite number `dot / (sqrt(norm1) * sqrt(norm2))`.  The retrieval
path's threshold test `similarity >= minScore` evaluates to false on
NaN for every threshold, so a zero-norm chunk is discarded — the same
observable outcome as treating the undefined similarity as 0 would
produce for positive thresholds. -/
theorem claim5_zero_norm_nan (sqrtq : ℚ → ℚ) (hsq0 : sqrtq 0 = 0)
    (hpos : ∀ x : ℚ, 0 < x → 0 < sqrtq x) (v w : Vec) (hlen : v.length = w.length) :
    (sqrtq (normSq v) * sqrtq (normSq w) = 0 ↔ normSq v = 0 ∨ normSq w = 0) ∧
    (normSq v = 0 ∨ normSq w = 0 →
      cosineSimilarity sqrtq v w = .ok .nan ∧ ∀ c : ℚ, jsGe .nan c = false) ∧
    (sqrtq (normSq v) * sqrtq (normSq w) ≠ 0 →
      cosineSimilarity sqrtq v w =
        .ok (.num (dotProduct v w / (sqrtq (normSq v) * sqrtq (normSq w))))) := by
  have hiff : sqrtq (normSq v) * sqrtq (normSq w) = 0 ↔ normSq v = 0 ∨ normSq w = 0 := by
    constructor
    · intro h
      by_contra hc
      push_neg at hc
      have hv : 0 < normSq v := lt_of_le_of_ne (normSq_nonneg v) (Ne.symm hc.1)
      have hw : 0 < normSq w := lt_of_le_of_ne (normSq_nonneg w) (Ne.symm hc.2)
      exact absurd h (ne_of_gt (mul_pos (hpos _ hv) (hpos _ hw)))
    · rintro (h | h) <;> rw [h, hsq0] <;> ring
  refine ⟨hiff, ?_, ?_⟩
  · intro h
    have hdot : dotProduct v w = 0 := by
      rcases h with h | h
      · exact dotProduct_zero_left (all_zero_of_normSq_eq_zero h)
      · exact dotProduct_zero_right (all_zero_of_normSq_eq_zero h)
    have hden : sqrtq (normSq v) * sqrtq (normSq w) = 0 := hiff.2 h
    constructor
    · unfold cosineSimilarity
      rw [if_neg (by simp [hlen])]
      unfold jsDiv
      rw [if_pos hden, if_pos hdot]
    · intro c
      rfl
  · intro h
    unfold cosineSimilarity
    rw [if_neg (by simp [hlen])]
    unfold jsDiv
    rw [if_neg h]

/-- Witness for C5 (amended) at concrete inputs: zero vectors yield NaN,
and `[1]`, `[2]` yield the finite cosine value. -/
theorem claim5_witness :
    (cosineSimilarity (fun q => q) [(0 : ℚ)] [(0 : ℚ)] = .ok .nan ∧
      ∀ c : ℚ, jsGe .nan c = false) ∧
    cosineSimilarity (fun q => q) [(1 : ℚ)] [(2 : ℚ)] = .ok (.num (2 / 4)) := by
  constructor
  · exact (claim5_zero_norm_nan (fun q => q) rfl (fun x hx => hx) [(0 : ℚ)] [(0 : ℚ)]
      rfl).2.1 (Or.inl (by norm_num [normSq, dotProduct]))
  · have h := (claim5_zero_norm_nan (fun q => q) rfl (fun x hx => hx) [(1 : ℚ)] [(2 : ℚ)]
      rfl).2.2 (by norm_num [normSq, dotProduct])
    rw [h]
    norm_num [normSq, dotProduct]

/-! ### `EmbeddingService.generateBatchEmbeddings`
(src/src/services/embeddingService.ts, lines 41-86)

The external embedding model is the oracle `embed`; `embed t = none`
models a per-item provider failure (the code catches it and substitutes
`null`).  The code then filters the `null`s out and appends only the
successful results, batch by batch (batch size 5). -/

/-- The result record of `generateEmbedding`. -/
structure Embedding where
  values : Vec
  dimension : Nat
  deriving DecidableEq, Repr

/-- `EmbeddingService.generateEmbedding` with the provider as oracle. -/
def generateEmbedding (embed : Str → Option Vec) (text : Str) : Except String Embedding :=
  match embed text with
  | some vals => .ok { values := vals, dimension := vals.length }
  | none => .error "Failed to generate embedding"

/-- One item of a batch: `generateEmbedding(text).catch(() => null)`. -/
def embedOrNull (embed : Str → Option Vec) (t : Str) : Option Embedding :=
  match generateEmbedding embed t with
  | .ok e => some e
  | .error _ => none

/-- One batch: map `embedOrNull` then filter out the `null` results
(`batchResults.filter(result => result !== null)`). -/
def batchResults (embed : Str → Option Vec) (b : List Str) : List Embedding :=
  (b.map (embedOrNull embed)).filterMap id

/-- `EmbeddingService.generateBatchEmbeddings`: process the texts in
batches of 5 (`for i += batchSize`), appending only the successful
embeddings of each batch. -/
def generateBatchEmbeddings (embed : Str → Option Vec) : List Str → List Embedding
  | [] => []
  | t1 :: t2 :: t3 :: t4 :: t5 :: rest =>
    batchResults embed [t1, t2, t3, t4, t5] ++ generateBatchEmbeddings embed rest
  | shortTail => batchResults embed shortTail

/-- Claim C1 evaluation at the failing input: with two chunk texts
"a", "b" where embedding "a" fails, the batch operation returns a
single-element list holding the embedding of "b" — not a two-element
index-aligned list with an error sentinel at position 0.  The element
at position 0 is the embedding of text 1, so the ingestion pairing
`chunks[i] ↔ embeddings[i]` pairs chunk 0 with the embedding of the
other chunk's text (and reads past the end for the last chunk). -/
theorem claim1_misalignment :
    (generateBatchEmbeddings
        (fun t => if t = "b".toList then some [(1 : ℚ)] else none)
        ["a".toList, "b".toList]).length = 1 ∧
    generateBatchEmbeddings
        (fun t => if t = "b".toList then some [(1 : ℚ)] else none)
        ["a".toList, "b".toList] =
      [{ values := [(1 : ℚ)], dimension := 1 }] := by
  constructor
  · simp [generateBatchEmbeddings, batchResults, embedOrNull, generateEmbedding]
  · simp [generateBatchEmbeddings, batchResults, embedOrNull, generateEmbedding]

/-! ### `ChunkingService` (src/src/services/chunkingService.ts)

`chunkText` splits the text into paragraphs (`split(/\n\s*\n/)`,
trimmed, empties dropped), then greedily accumulates paragraphs into a
current chunk, emitting it when the next paragraph would push the
character length past `chunkSize * 4`, and seeding the next chunk with
`getOverlapText` of the emitted one. -/

/-- A sentence-final punctuation character, `[.!?]`. -/
def isPunctSB (c : Char) : Bool := c = '.' || c = '!' || c = '?'

/-- An ASCII capital letter, `[A-Z]`. -/
def isCap (c : Char) : Bool := 'A' ≤ c && c ≤ 'Z'

/-- Anchored match of `/[.!?]\s+[A-Z]/` at the head of `l`: the
punctuation, a maximal nonempty whitespace run, then a capital
(backtracking cannot shorten the run, since no whitespace character is
a capital).  Returns the match length. -/
def tryMatchSB (l : Str) : Option Nat :=
  match l with
  | [] => none
  | c :: rest =>
    if isPunctSB c then
      let k := (rest.takeWhile isWS).length
      if 1 ≤ k then
        match (rest.drop k).head? with
        | some d => if isCap d then some (k + 2) else none
        | none => none
      else none
    else none

/-- The global scan of `String.match(/[.!?]\s+[A-Z]/g)`: leftmost,
non-overlapping matches, as (position, length) pairs.  A successful
match has length `len ≥ 3`, so continuing at `rest.drop (len - 1)` is
the same as continuing at `l.drop len`. -/
def scanSB : Str → Nat → List (Nat × Nat)
  | [], _ => []
  | l@(_ :: rest), pos =>
    match tryMatchSB l with
    | some len => (pos, len) :: scanSB (rest.drop (len - 1)) (pos + len)
    | none => scanSB rest (pos + 1)
  termination_by l => l.length
  decreasing_by
    · simp
      omega
    · simp

/-- The substring of `s` at position `p` with length `len`. -/
def subAt (s : Str) (p len : Nat) : Str := (s.drop p).take len

/-- Largest `p < n` satisfying `pred`, or none. -/
def lastBelow (pred : Nat → Bool) : Nat → Option Nat
  | 0 => none
  | n + 1 => if pred n then some n else lastBelow pred n

/-- JS `String.lastIndexOf(sub)`: character index of the last
occurrence, or −1. -/
def jsLastIndexOf (s sub : Str) : Int :=
  match lastBelow (fun i => decide (subAt s i sub.length = sub)) (s.length + 1) with
  | some i => (i : Int)
  | none => -1

/-- JS `text.slice(-n)`: the last `n` characters (`slice(-0)` is the
whole string). -/
def jsSliceNeg (l : Str) (n : Nat) : Str :=
  if n = 0 then l else l.drop (l.length - n)

/-- `ChunkingService.getOverlapText` (lines 147-163): if the text fits
in `overlapChars`, return it whole; otherwise take the last
`overlapChars` characters, collect the sentence-break matches, and if
any, return the slice starting 2 past the last occurrence of the last
matched substring; else the tail verbatim. -/
def getOverlapText (text : Str) (overlapChars : Nat) : Str :=
  if text.length ≤ overlapChars then text
  else
    let overlapSection := jsSliceNeg text overlapChars
    match (scanSB overlapSection 0).getLast? with
    | some m =>
      let lastStr := subAt overlapSection m.1 m.2
      let i := jsLastIndexOf overlapSection lastStr
      overlapSection.drop (i + 2).toNat
    | none => overlapSection

/-- Anchored match of the paragraph separator `/\n\s*\n/` at the head:
a newline, then (greedily, with backtracking) whitespace up to a final
newline.  Returns the match length: 2 plus the index of the last
newline in the following whitespace run. -/
def sepLen (l : Str) : Option Nat :=
  match l with
  | '\n' :: rest =>
    (lastBelow (fun i => decide ((rest.takeWhile isWS).get? i = some '\n'))
        (rest.takeWhile isWS).length).map (fun j => j + 2)
  | _ => none

/-- The field scan of `String.split(/\n\s*\n/)`; `acc` is the current
field, reversed.  A separator match has length `k ≥ 2`, so continuing
at `rest.drop (k - 1)` is the same as continuing at `l.drop k`. -/
def splitFields (acc : Str) : Str → List Str
  | [] => [acc.reverse]
  | l@(c :: rest) =>
    match sepLen l with
    | some k => acc.reverse :: splitFields [] (rest.drop (k - 1))
    | none => splitFields (c :: acc) rest
  termination_by l => l.length
  decreasing_by
    · simp
      omega
    · simp

/-- `ChunkingService.splitIntoParagraphs` (lines 136-142). -/
def splitIntoParagraphs (text : Str) : List Str :=
  ((splitFields [] text).map jsTrim).filter (fun p => decide (0 < p.length))

/-- `Math.ceil(len / 4)`, the token-count estimate (CHARS_PER_TOKEN=4). -/
def ceilDiv4 (n : Nat) : Nat := (n + 3) / 4

/-- A produced chunk; the `metadata` object of the source is flattened
into `startChar` / `endChar` (its optional `section` field is never set
by `chunkText`). -/
structure TextChunk where
  text : Str
  index : Nat
  tokenCount : Nat
  startChar : Nat
  endChar : Nat
  deriving DecidableEq, Repr

/-- The separator `'\n\n'` used when appending a paragraph. -/
def nlnl : Str := ['\n', '\n']

/-- The loop of `chunkText` (lines 43-81), one step per paragraph, plus
the final flush.  State: remaining paragraphs, `currentChunk`,
`chunkIndex`, `startChar`. -/
def chunkLoop (overlapChars chunkChars : Nat) :
    List Str → Str → Nat → Nat → List TextChunk
  | [], currentChunk, chunkIndex, startChar =>
    if 0 < (jsTrim currentChunk).length then
      [{ text := jsTrim currentChunk, index := chunkIndex,
         tokenCount := ceilDiv4 currentChunk.length,
         startChar := startChar, endChar := startChar + currentChunk.length }]
    else []
  | p :: ps, currentChunk, chunkIndex, startChar =>
    let potential := currentChunk ++ (if currentChunk.length ≠ 0 then nlnl else []) ++ p
    if chunkChars < potential.length ∧ 0 < currentChunk.length then
      let ov := getOverlapText currentChunk overlapChars
      { text := jsTrim currentChunk, index := chunkIndex,
        tokenCount := ceilDiv4 currentChunk.length,
        startChar := startChar, endChar := startChar + currentChunk.length } ::
      chunkLoop overlapChars chunkChars ps
        (ov ++ (if ov.length ≠ 0 then nlnl else []) ++ p)
        (chunkIndex + 1) (startChar + currentChunk.length - ov.length)
    else
      chunkLoop overlapChars chunkChars ps potential chunkIndex startChar

/-- `ChunkingService.chunkText` with explicit size parameters
(defaults 512 and 50 at the call sites). -/
def chunkText (text : Str) (chunkSize overlapSize : Nat) : List TextChunk :=
  chunkLoop (overlapSize * 4) (chunkSize * 4) (splitIntoParagraphs text) [] 0 0

example : splitIntoParagraphs "ab\n\ncd\n \n\nef".toList =
    ["ab".toList, "cd".toList, "ef".toList] := by
  simp [splitIntoParagraphs, splitFields, sepLen, lastBelow, subAt, jsTrim, isWS]

example : getOverlapText "ab. Cd".toList 5 = "Cd".toList := by
  simp [getOverlapText, jsSliceNeg, scanSB, tryMatchSB, isWS, isPunctSB, isCap,
    jsLastIndexOf, lastBelow, subAt]

/-! ### Scan analysis for `getOverlapText` -/

theorem lastBelow_eq_some {pred : Nat → Bool} :
    ∀ n p, lastBelow pred n = some p ↔
      (p < n ∧ pred p = true ∧ ∀ q, p < q → q < n → pred q = false) := by
  intro n
  induction n with
  | zero => simp [lastBelow]
  | succ n ih =>
    intro p
    rw [lastBelow]
    by_cases hn : pred n = true
    · rw [if_pos hn]
      constructor
      · rintro h
        injection h with h
        subst h
        exact ⟨Nat.lt_succ_self _, hn, fun q h1 h2 => by omega⟩
      · rintro ⟨h1, h2, h3⟩
        congr 1
        by_contra hne
        have hpn : p < n := by omega
        have := h3 n hpn (Nat.lt_succ_self _)
        rw [this] at hn
        exact absurd hn (by simp)
    · rw [if_neg hn]
      rw [ih]
      constructor
      · rintro ⟨h1, h2, h3⟩
        refine ⟨by omega, h2, fun q hq1 hq2 => ?_⟩
        by_cases hqn : q = n
        · subst hqn
          simpa using hn
        · exact h3 q hq1 (by omega)
      · rintro ⟨h1, h2, h3⟩
        have hpn : p ≠ n := by
          rintro rfl
          rw [h2] at hn
          exact absurd h2 (by simp [h2] at hn ⊢)
        exact ⟨by omega, h2, fun q hq1 hq2 => h3 q hq1 (by omega)⟩

theorem lastBelow_eq_none {pred : Nat → Bool} :
    ∀ n, lastBelow pred n = none ↔ ∀ q, q < n → pred q = false := by
  intro n
  induction n with
  | zero => simp [lastBelow]
  | succ n ih =>
    rw [lastBelow]
    by_cases hn : pred n = true
    · rw [if_pos hn]
      simp only [false_iff, reduceCtorEq]
      intro h
      rw [h n (Nat.lt_succ_self _)] at hn
      exact absurd hn (by simp)
    · rw [if_neg hn, ih]
      constructor
      · intro h q hq
        by_cases hqn : q = n
        · subst hqn
          simpa using hn
        · exact h q (by omega)
      · intro h q hq
        exact h q (by omega)

theorem not_ws_of_punct {c : Char} (h : isPunctSB c = true) : isWS c = false := by
  rcases (by simpa [isPunctSB, or_assoc] using h : c = '.' ∨ c = '!' ∨ c = '?') with
    rfl | rfl | rfl
  · decide
  · decide
  · decide

theorem not_punct_of_ws {c : Char} (h : isWS c = true) : isPunctSB c = false := by
  cases hpc : isPunctSB c
  · rfl
  · rw [not_ws_of_punct hpc] at h
    exact absurd h (by simp)

theorem not_punct_of_cap {c : Char} (h : isCap c = true) : isPunctSB c = false := by
  cases hpc : isPunctSB c
  · rfl
  · rcases (by simpa [isPunctSB, or_assoc] using hpc : c = '.' ∨ c = '!' ∨ c = '?') with
      rfl | rfl | rfl
    · exact absurd h (by decide)
    · exact absurd h (by decide)
    · exact absurd h (by decide)

theorem not_ws_of_cap {c : Char} (h : isCap c = true) : isWS c = false := by
  cases hws : isWS c
  · rfl
  · rcases (by simpa [isWS, or_assoc] using hws :
        c = ' ' ∨ c = '\t' ∨ c = '\n' ∨ c = '\r' ∨ c = '\x0b' ∨ c = '\x0c') with
      rfl | rfl | rfl | rfl | rfl | rfl
    · exact absurd h (by decide)
    · exact absurd h (by decide)
    · exact absurd h (by decide)
    · exact absurd h (by decide)
    · exact absurd h (by decide)
    · exact absurd h (by decide)

theorem tryMatchSB_nil : tryMatchSB [] = none := rfl

theorem tryMatchSB_eq_some {l : Str} {L : Nat} :
    tryMatchSB l = some L ↔
      ∃ c rest, l = c :: rest ∧ isPunctSB c = true ∧
        1 ≤ (rest.takeWhile isWS).length ∧
        L = (rest.takeWhile isWS).length + 2 ∧
        ∃ d, (rest.drop (rest.takeWhile isWS).length).head? = some d ∧ isCap d = true := by
  constructor
  · intro h
    cases l with
    | nil => simp [tryMatchSB] at h
    | cons c rest =>
      rw [tryMatchSB] at h
      by_cases hp : isPunctSB c
      · rw [if_pos hp] at h
        by_cases hk : 1 ≤ (rest.takeWhile isWS).length
        · rw [if_pos hk] at h
          cases hd : (rest.drop (rest.takeWhile isWS).length).head? with
          | none => rw [hd] at h; simp at h
          | some d =>
            rw [hd] at h
            by_cases hcap : isCap d = true
            · simp only [hcap, if_true] at h
              injection h with h
              exact ⟨c, rest, rfl, hp, hk, h.symm, d, hd, hcap⟩
            · simp [hcap] at h
        · rw [if_neg hk] at h
          simp at h
      · rw [if_neg hp] at h
        simp at h
  · rintro ⟨c, rest, rfl, hp, hk, rfl, d, hd, hcap⟩
    rw [tryMatchSB, if_pos hp, if_pos hk, hd]
    simp [hcap]

theorem tryMatchSB_none_of_head {l : Str} {c : Char} (h : l.head? = some c)
    (hc : isPunctSB c = false) : tryMatchSB l = none := by
  cases l with
  | nil => rfl
  | cons d rest =>
    simp at h
    subst h
    rw [tryMatchSB, if_neg (by simp [hc])]

theorem tryMatchSB_len {l : Str} {L : Nat} (h : tryMatchSB l = some L) : 3 ≤ L := by
  obtain ⟨c, rest, rfl, -, hk, rfl, -⟩ := tryMatchSB_eq_some.1 h
  omega

theorem drop_cons_of_pos {c : Char} {rest : Str} {n : Nat} (h : 1 ≤ n) :
    (c :: rest).drop n = rest.drop (n - 1) := by
  cases n with
  | zero => omega
  | succ m => simp

theorem scanSB_nil (pos : Nat) : scanSB [] pos = [] := by
  rw [scanSB]

theorem scanSB_cons_some {c : Char} {rest : Str} {pos len : Nat}
    (h : tryMatchSB (c :: rest) = some len) :
    scanSB (c :: rest) pos = (pos, len) :: scanSB ((c :: rest).drop len) (pos + len) := by
  rw [scanSB, h, drop_cons_of_pos (by have := tryMatchSB_len h; omega)]

theorem scanSB_cons_none {c : Char} {rest : Str} {pos : Nat}
    (h : tryMatchSB (c :: rest) = none) :
    scanSB (c :: rest) pos = scanSB rest (pos + 1) := by
  rw [scanSB, h]

theorem scanSB_sound : ∀ (l : Str) (pos : Nat), ∀ p L, (p, L) ∈ scanSB l pos →
    pos ≤ p ∧ tryMatchSB (l.drop (p - pos)) = some L := by
  intro l pos
  induction l, pos using scanSB.induct with
  | case1 pos =>
    intro p L h
    rw [scanSB_nil] at h
    simp at h
  | case2 c rest pos len heq ih =>
    intro p L h
    have hlen : 3 ≤ len := tryMatchSB_len heq
    rw [scanSB_cons_some heq, drop_cons_of_pos (by omega)] at h
    rcases List.mem_cons.1 h with h1 | h1
    · have hpl : p = pos ∧ L = len := by simpa [Prod.ext_iff] using h1
      obtain ⟨rfl, rfl⟩ := hpl
      simpa using heq
    · obtain ⟨hle, hm⟩ := ih p L h1
      refine ⟨by omega, ?_⟩
      rw [List.drop_drop] at hm
      rw [drop_cons_of_pos (by omega : 1 ≤ p - pos)]
      have harith : (len - 1) + (p - (pos + len)) = p - pos - 1 := by omega
      rwa [harith] at hm
  | case3 c rest pos heq ih =>
    intro p L h
    rw [scanSB_cons_none heq] at h
    obtain ⟨hle, hm⟩ := ih p L h
    refine ⟨by omega, ?_⟩
    rw [drop_cons_of_pos (by omega : 1 ≤ p - pos)]
    have harith : p - (pos + 1) = p - pos - 1 := by omega
    rwa [harith] at hm

theorem scanSB_ordered : ∀ (l : Str) (pos : Nat),
    List.Pairwise (fun a b : Nat × Nat => a.1 + a.2 ≤ b.1) (scanSB l pos) := by
  intro l pos
  induction l, pos using scanSB.induct with
  | case1 pos =>
    rw [scanSB_nil]
    exact List.Pairwise.nil
  | case2 c rest pos len heq ih =>
    have hlen : 3 ≤ len := tryMatchSB_len heq
    rw [scanSB_cons_some heq, drop_cons_of_pos (by omega)]
    refine List.Pairwise.cons ?_ ih
    intro b hb
    have := (scanSB_sound _ _ b.1 b.2 (by simpa using hb)).1
    simpa using this
  | case3 c rest pos heq ih =>
    rw [scanSB_cons_none heq]
    exact ih

theorem scanSB_complete : ∀ (l : Str) (pos : Nat), ∀ j L,
    tryMatchSB (l.drop j) = some L →
    ∃ q len, (q, len) ∈ scanSB l pos ∧ q ≤ pos + j ∧ pos + j < q + len := by
  intro l pos
  induction l, pos using scanSB.induct with
  | case1 pos =>
    intro j L h
    rw [List.drop_nil] at h
    simp [tryMatchSB] at h
  | case2 c rest pos len heq ih =>
    intro j L h
    have hlen : 3 ≤ len := tryMatchSB_len heq
    by_cases hj : j < len
    · refine ⟨pos, len, ?_, by omega, by omega⟩
      rw [scanSB_cons_some heq]
      exact List.mem_cons_self _ _
    · have hj' : len ≤ j := by omega
      have hdd : (rest.drop (len - 1)).drop (j - len) = (c :: rest).drop j := by
        rw [List.drop_drop]
        have harith : (len - 1) + (j - len) = j - 1 := by omega
        rw [harith, ← drop_cons_of_pos (by omega : 1 ≤ j)]
      obtain ⟨q, len', hmem, h1, h2⟩ := ih (j - len) L (by rw [hdd]; exact h)
      refine ⟨q, len', ?_, by omega, by omega⟩
      rw [scanSB_cons_some heq, drop_cons_of_pos (by omega : 1 ≤ len)]
      exact List.mem_cons_of_mem _ hmem
  | case3 c rest pos heq ih =>
    intro j L h
    rcases Nat.eq_zero_or_pos j with rfl | hj
    · rw [List.drop_zero] at h
      rw [h] at heq
      exact absurd heq (by simp)
    · have hdd : rest.drop (j - 1) = (c :: rest).drop j := (drop_cons_of_pos hj).symm
      obtain ⟨q, len', hmem, h1, h2⟩ := ih (j - 1) L (by rw [hdd]; exact h)
      refine ⟨q, len', ?_, by omega, by omega⟩
      rw [scanSB_cons_none heq]
      exact hmem

theorem tryMatchSB_interior {l : Str} {L j : Nat} (h : tryMatchSB l = some L)
    (h1 : 0 < j) (h2 : j < L) : tryMatchSB (l.drop j) = none := by
  obtain ⟨c, rest, rfl, hp, hk, rfl, d, hd, hcap⟩ := tryMatchSB_eq_some.1 h
  rw [drop_cons_of_pos (by omega)]
  by_cases hik : j - 1 < (rest.takeWhile isWS).length
  · obtain ⟨t, ht⟩ := @List.takeWhile_prefix _ rest isWS
    cases hg : (rest.takeWhile isWS)[j - 1]? with
    | none =>
      rw [List.getElem?_eq_none_iff] at hg
      omega
    | some x =>
      have hx : isWS x = true :=
        List.mem_takeWhile_imp (List.getElem?_mem hg)
      refine tryMatchSB_none_of_head ?_ (not_punct_of_ws hx)
      rw [List.head?_drop, ← ht, List.getElem?_append]
      rw [if_pos hik]
      exact hg
  · have hik' : j - 1 = (rest.takeWhile isWS).length := by omega
    refine tryMatchSB_none_of_head ?_ (not_punct_of_cap hcap)
    rw [List.head?_drop]
    rw [← List.head?_drop, hik']
    exact hd

theorem pairwise_getLast {α : Type} {R : α → α → Prop} :
    ∀ (ms : List α), List.Pairwise R ms → ∀ {b : α}, ms.getLast? = some b →
      ∀ {a : α}, a ∈ ms → a = b ∨ R a b := by
  intro ms
  induction ms with
  | nil => intro _ b hb; simp at hb
  | cons x rest ih =>
    intro hpw b hb a ha
    cases rest with
    | nil =>
      simp at hb ha
      subst hb
      exact Or.inl ha
    | cons y rest' =>
      rw [List.getLast?_cons_cons] at hb
      rcases List.mem_cons.1 ha with rfl | ha'
      · refine Or.inr ((List.pairwise_cons.1 hpw).1 b ?_)
        exact List.mem_of_mem_getLast? hb
      · exact ih (List.pairwise_cons.1 hpw).2 hb ha'

theorem match_pos_lt {s : Str} {p L : Nat} (h : tryMatchSB (s.drop p) = some L) :
    p < s.length := by
  obtain ⟨c, rest, heq, -⟩ := tryMatchSB_eq_some.1 h
  by_contra hc
  rw [List.drop_eq_nil_iff.2 (by omega)] at heq
  exact absurd heq (by simp)

theorem scan_last_match {s : Str} {pstar Lstar : Nat}
    (hlast : (scanSB s 0).getLast? = some (pstar, Lstar)) :
    tryMatchSB (s.drop pstar) = some Lstar := by
  have hmem : (pstar, Lstar) ∈ scanSB s 0 := List.mem_of_mem_getLast? hlast
  have := (scanSB_sound s 0 pstar Lstar hmem).2
  simpa using this

theorem scan_last_max {s : Str} {pstar Lstar : Nat}
    (hlast : (scanSB s 0).getLast? = some (pstar, Lstar)) :
    ∀ q, pstar < q → tryMatchSB (s.drop q) = none := by
  intro q hq
  cases hm : tryMatchSB (s.drop q) with
  | none => rfl
  | some L'' =>
    exfalso
    obtain ⟨q', len', hmem', h1, h2⟩ := scanSB_complete s 0 q L'' hm
    simp only [Nat.zero_add] at h1 h2
    rcases pairwise_getLast _ (scanSB_ordered s 0) hlast hmem' with heq | hrel
    · have hq' : q' = pstar ∧ len' = Lstar := by simpa [Prod.ext_iff] using heq
      rw [hq'.1] at h1 h2
      rw [hq'.2] at h2
      have hint : tryMatchSB ((s.drop pstar).drop (q - pstar)) = none :=
        tryMatchSB_interior (scan_last_match hlast) (by omega) (by omega)
      rw [List.drop_drop] at hint
      have harith : pstar + (q - pstar) = q := by omega
      rw [harith, hm] at hint
      exact absurd hint (by simp)
    · simp at hrel
      omega

/-- The last position in `s` at which the sentence-break pattern
matches, the claim's "last sentence-break pattern". -/
def lastSB (s : Str) : Option Nat :=
  lastBelow (fun p => (tryMatchSB (s.drop p)).isSome) s.length

theorem lastSB_eq_scan (s : Str) :
    lastSB s = (scanSB s 0).getLast?.map Prod.fst := by
  cases hms : (scanSB s 0).getLast? with
  | none =>
    rw [List.getLast?_eq_none_iff] at hms
    show lastSB s = none
    rw [lastSB, lastBelow_eq_none]
    intro q hq
    cases hm : tryMatchSB (s.drop q) with
    | none => simp
    | some L =>
      obtain ⟨q', len', hmem', -, -⟩ := scanSB_complete s 0 q L hm
      rw [hms] at hmem'
      simp at hmem'
  | some m =>
    obtain ⟨pstar, Lstar⟩ := m
    show lastSB s = some pstar
    rw [lastSB, lastBelow_eq_some]
    refine ⟨match_pos_lt (scan_last_match hms), by simp [scan_last_match hms], ?_⟩
    intro q hq1 hq2
    rw [scan_last_max hms q hq1]
    rfl

theorem takeWhile_run_append {p : Char → Bool} :
    ∀ (run : Str) (d : Char) (X : Str), (∀ x ∈ run, p x = true) → p d = false →
      List.takeWhile p (run ++ d :: X) = run := by
  intro run
  induction run with
  | nil =>
    intro d X _ hd
    simp [List.takeWhile, hd]
  | cons a run' ih =>
    intro d X hall hd
    have ha : p a = true := hall a (List.mem_cons_self _ _)
    simp only [List.cons_append, List.takeWhile_cons, ha, if_true]
    rw [ih d X (fun x hx => hall x (List.mem_cons_of_mem _ hx)) hd]

theorem match_take {l : Str} {L : Nat} (h : tryMatchSB l = some L) :
    ∃ c run d, l.take L = c :: (run ++ [d]) ∧ isPunctSB c = true ∧
      (∀ x ∈ run, isWS x = true) ∧ 1 ≤ run.length ∧ isCap d = true ∧
      L = run.length + 2 ∧ L ≤ l.length := by
  obtain ⟨c, rest, rfl, hp, hk, rfl, d, hd, hcap⟩ := tryMatchSB_eq_some.1 h
  set run := rest.takeWhile isWS with hrundef
  obtain ⟨t, ht⟩ := @List.takeWhile_prefix _ rest isWS
  have hdrop : rest.drop run.length = t := by
    rw [← ht, List.drop_left]
  rw [hdrop] at hd
  cases t with
  | nil => simp at hd
  | cons d0 t' =>
    have hd0 : d0 = d := by simpa using hd
    refine ⟨c, run, d, ?_, hp, fun x hx => List.mem_takeWhile_imp hx, hk, hcap, rfl, ?_⟩
    · have htk : rest.take (run.length + 1) = run ++ [d] := by
        rw [← ht, List.take_append 1, hd0]
        rfl
      rw [show run.length + 2 = (run.length + 1) + 1 from rfl, List.take_succ_cons, htk]
    · have hlen : rest.length = run.length + (d0 :: t').length := by
        rw [← ht]
        simp
      simp only [List.length_cons] at hlen ⊢
      omega

theorem occurrence_match {s : Str} {r : Nat} {c : Char} {run : Str} {d : Char}
    (hocc : (s.drop r).take (run.length + 2) = c :: (run ++ [d]))
    (hp : isPunctSB c = true) (hrun : ∀ x ∈ run, isWS x = true)
    (hk : 1 ≤ run.length) (hcap : isCap d = true) :
    tryMatchSB (s.drop r) = some (run.length + 2) := by
  have hdecomp : s.drop r = c :: (run ++ d :: (s.drop r).drop (run.length + 2)) := by
    conv =>
      lhs
      rw [← List.take_append_drop (run.length + 2) (s.drop r)]
    rw [hocc]
    simp
  have htw : List.takeWhile isWS (run ++ d :: (s.drop r).drop (run.length + 2)) = run :=
    takeWhile_run_append run d _ hrun (not_ws_of_cap hcap)
  refine tryMatchSB_eq_some.2 ⟨c, _, hdecomp, hp, ?_, ?_, d, ?_, hcap⟩
  · rw [htw]
    exact hk
  · rw [htw]
  · rw [htw]
    have : (run ++ d :: (s.drop r).drop (run.length + 2)).drop run.length =
        d :: (s.drop r).drop (run.length + 2) := List.drop_left _ _
    rw [this]
    rfl

theorem jsLastIndexOf_match {s : Str} {pstar Lstar : Nat}
    (hmatch : tryMatchSB (s.drop pstar) = some Lstar)
    (hmax : ∀ q, pstar < q → tryMatchSB (s.drop q) = none) :
    jsLastIndexOf s (subAt s pstar Lstar) = (pstar : Int) := by
  obtain ⟨c, run, d, htake, hp, hrun, hk, hcap, hL, hLle⟩ := match_take hmatch
  have hmlen : (subAt s pstar Lstar).length = Lstar := by
    rw [subAt, List.length_take]
    have : Lstar ≤ (s.drop pstar).length := hLle
    omega
  rw [jsLastIndexOf]
  have hlb : lastBelow (fun i => decide (subAt s i (subAt s pstar Lstar).length =
      subAt s pstar Lstar)) (s.length + 1) = some pstar := by
    rw [lastBelow_eq_some]
    refine ⟨by have := match_pos_lt hmatch; omega, by simp [hmlen], ?_⟩
    intro q hq1 hq2
    simp only [decide_eq_false_iff_not, hmlen]
    intro hcon
    have hocc : (s.drop q).take (run.length + 2) = c :: (run ++ [d]) := by
      rw [← hL, ← htake]
      exact hcon
    have := occurrence_match hocc hp hrun hk hcap
    rw [hmax q hq1] at this
    exact absurd this (by simp)
  rw [hlb]

/-- The overlap rule as amended: when the chunk text is longer than the
overlap budget, the overlap is the suffix of the last `overlapChars`
characters starting two characters past the last position where the
sentence-break pattern matches (skipping the punctuation and the first
following whitespace character); when no sentence break occurs, the
tail verbatim; and when the whole text fits in the budget, the whole
text verbatim with no sentence-break search. -/
def overlapAmended (text : Str) (overlapChars : Nat) : Str :=
  if text.length ≤ overlapChars then text
  else
    match lastSB (jsSliceNeg text overlapChars) with
    | some p => (jsSliceNeg text overlapChars).drop (p + 2)
    | none => jsSliceNeg text overlapChars

theorem getOverlapText_eq_amended (text : Str) (oc : Nat) :
    getOverlapText text oc = overlapAmended text oc := by
  by_cases hlen : text.length ≤ oc
  · simp [getOverlapText, overlapAmended, hlen]
  · cases hms : (scanSB (jsSliceNeg text oc) 0).getLast? with
    | none =>
      simp only [getOverlapText, overlapAmended, if_neg hlen, lastSB_eq_scan, hms,
        Option.map_none']
    | some m =>
      obtain ⟨pstar, Lstar⟩ := m
      simp only [getOverlapText, overlapAmended, if_neg hlen, lastSB_eq_scan, hms,
        Option.map_some']
      rw [jsLastIndexOf_match (scan_last_match hms) (scan_last_max hms)]
      congr 1

theorem jsSliceNeg_length_le (l : Str) (n : Nat) : (jsSliceNeg l n).length ≤ l.length := by
  unfold jsSliceNeg
  split
  · exact le_refl _
  · simp

theorem getOverlapText_length_le (s : Str) (n : Nat) :
    (getOverlapText s n).length ≤ s.length := by
  rw [getOverlapText_eq_amended]
  unfold overlapAmended
  split
  · exact le_refl _
  · split
    · calc (List.drop _ (jsSliceNeg s n)).length ≤ (jsSliceNeg s n).length := by simp
        _ ≤ s.length := jsSliceNeg_length_le s n
    · exact jsSliceNeg_length_le s n

/-- The relation between an emitted chunk `a` and the chunk `b` seeded
from it: for the internal buffer `buf` whose trim is `a`'s text,
`b.startChar = a.endChar − |getOverlapText buf|`. -/
def chunkStep (oc : Nat) (a b : TextChunk) : Prop :=
  ∃ buf : Str, a.text = jsTrim buf ∧ a.endChar = a.startChar + buf.length ∧
    (getOverlapText buf oc).length ≤ buf.length ∧
    b.startChar = a.endChar - (getOverlapText buf oc).length

theorem chunkLoop_chain (oc cc : Nat) :
    ∀ (ps : List Str) (cur : Str) (idx sc : Nat),
      List.Chain' (chunkStep oc) (chunkLoop oc cc ps cur idx sc) ∧
      (∀ c ∈ (chunkLoop oc cc ps cur idx sc).head?, c.startChar = sc) := by
  intro ps
  induction ps with
  | nil =>
    intro cur idx sc
    simp only [chunkLoop]
    split
    · refine ⟨List.chain'_singleton _, ?_⟩
      intro c hc
      simp at hc
      rw [← hc]
    · exact ⟨List.chain'_nil, by intro c hc; simp at hc⟩
  | cons p ps ih =>
    intro cur idx sc
    simp only [chunkLoop]
    by_cases hcond :
        cc < (cur ++ (if cur.length ≠ 0 then nlnl else []) ++ p).length ∧ 0 < cur.length
    · rw [if_pos hcond]
      obtain ⟨hch, hhead⟩ := ih
        (getOverlapText cur oc ++
          (if (getOverlapText cur oc).length ≠ 0 then nlnl else []) ++ p)
        (idx + 1) (sc + cur.length - (getOverlapText cur oc).length)
      constructor
      · rw [List.chain'_cons']
        refine ⟨?_, hch⟩
        intro b hb
        exact ⟨cur, rfl, rfl, getOverlapText_length_le cur oc, hhead b hb⟩
      · intro c hc
        simp at hc
        rw [← hc]
    · rw [if_neg hcond]
      exact ih _ idx sc

/-- The overlap rule exactly as claim C7 words it: within the last
`overlapSize*4` characters, the overlap begins at the character
immediately after the punctuation of the last sentence-break pattern,
or is that tail verbatim when no pattern occurs. -/
def overlapClaimed (text : Str) (overlapChars : Nat) : Str :=
  match lastSB (jsSliceNeg text overlapChars) with
  | some p => (jsSliceNeg text overlapChars).drop (p + 1)
  | none => jsSliceNeg text overlapChars

/-- Claim C7 counterexample: the code's overlap does not begin at the
character immediately after the sentence-break punctuation.  On
"ab. Cd" with an overlap budget of 5 characters the code slices two
characters past the punctuation (yielding "Cd"), while the claim's rule
yields " Cd".  Moreover, when the chunk fits inside the overlap budget
("a. Bc", budget 8), the code returns the whole text verbatim without
any sentence-break search, while the claim's rule yields " Bc". -/
theorem claim7_counterexample :
    (getOverlapText "ab. Cd".toList 5 = "Cd".toList ∧
      overlapClaimed "ab. Cd".toList 5 = " Cd".toList ∧
      getOverlapText "ab. Cd".toList 5 ≠ overlapClaimed "ab. Cd".toList 5) ∧
    (getOverlapText "a. Bc".toList 8 = "a. Bc".toList ∧
      overlapClaimed "a. Bc".toList 8 = " Bc".toList ∧
      getOverlapText "a. Bc".toList 8 ≠ overlapClaimed "a. Bc".toList 8) := by
  have h1 : getOverlapText "ab. Cd".toList 5 = "Cd".toList := by
    simp [getOverlapText, jsSliceNeg, scanSB, tryMatchSB, isWS, isPunctSB, isCap,
      jsLastIndexOf, lastBelow, subAt]
  have h2 : overlapClaimed "ab. Cd".toList 5 = " Cd".toList := by
    simp [overlapClaimed, lastSB, jsSliceNeg, tryMatchSB, isWS, isPunctSB, isCap,
      lastBelow]
  have h3 : getOverlapText "a. Bc".toList 8 = "a. Bc".toList := by
    simp [getOverlapText]
  have h4 : overlapClaimed "a. Bc".toList 8 = " Bc".toList := by
    simp [overlapClaimed, lastSB, jsSliceNeg, tryMatchSB, isWS, isPunctSB, isCap,
      lastBelow]
  refine ⟨⟨h1, h2, ?_⟩, ⟨h3, h4, ?_⟩⟩
  · rw [h1, h2]
    decide
  · rw [h3, h4]
    decide

/-- Claim C7 (amended): when the chunker emits a chunk and seeds the
next one: if the emitted buffer is no longer than `overlapSize*4`
characters, the whole buffer is the overlap verbatim (no sentence-break
search); otherwise, within the last `overlapSize*4` characters: if a
sentence-break pattern (`.`, `!` or `?` followed by whitespace and a
capital letter) occurs there, the overlap begins two characters after
the punctuation — skipping the punctuation and the first whitespace
character (not "immediately after the punctuation" as claimed);
otherwise the tail verbatim (this is `overlapAmended`, proved equal to
the implementation's `getOverlapText`).  And for every run of the
chunker, consecutive chunks satisfy `startChar(next) = endChar(prev) −
length(overlap of the previous buffer)` where the previous chunk's text
is the trim of that buffer. -/
theorem claim7_overlap_rule :
    (∀ (text : Str) (oc : Nat), getOverlapText text oc = overlapAmended text oc) ∧
    (∀ (text : Str) (cs os : Nat),
      List.Chain' (chunkStep (os * 4)) (chunkText text cs os)) :=
  ⟨getOverlapText_eq_amended,
    fun text cs os =>
      (chunkLoop_chain (os * 4) (cs * 4) (splitIntoParagraphs text) [] 0 0).1⟩

/-! ### JS arithmetic on possibly non-finite values

Used by the sort comparator and the confidence computation.  Finite
arithmetic is exact rational arithmetic (the float idealization); the
special-value cases follow IEEE-754 / JS semantics. -/

/-- JS subtraction `a - b`. -/
def jsSub : JSVal → JSVal → JSVal
  | .num x, .num y => .num (x - y)
  | .nan, _ => .nan
  | _, .nan => .nan
  | .posInf, .posInf => .nan
  | .negInf, .negInf => .nan
  | .posInf, _ => .posInf
  | .negInf, _ => .negInf
  | .num _, .posInf => .negInf
  | .num _, .negInf => .posInf

/-- JS addition `a + b`. -/
def jsAdd : JSVal → JSVal → JSVal
  | .num x, .num y => .num (x + y)
  | .nan, _ => .nan
  | _, .nan => .nan
  | .posInf, .negInf => .nan
  | .negInf, .posInf => .nan
  | .posInf, _ => .posInf
  | _, .posInf => .posInf
  | .negInf, _ => .negInf
  | _, .negInf => .negInf

/-- JS multiplication `a * b`. -/
def jsMul : JSVal → JSVal → JSVal
  | .num x, .num y => .num (x * y)
  | .nan, _ => .nan
  | _, .nan => .nan
  | .posInf, .posInf => .posInf
  | .posInf, .negInf => .negInf
  | .negInf, .posInf => .negInf
  | .negInf, .negInf => .posInf
  | .posInf, .num y => if y = 0 then .nan else if 0 < y then .posInf else .negInf
  | .num x, .posInf => if x = 0 then .nan else if 0 < x then .posInf else .negInf
  | .negInf, .num y => if y = 0 then .nan else if 0 < y then .negInf else .posInf
  | .num x, .negInf => if x = 0 then .nan else if 0 < x then .negInf else .posInf

/-- JS division `a / b` on possibly non-finite operands. -/
def jsDivV : JSVal → JSVal → JSVal
  | .num a, .num b => jsDiv a b
  | .nan, _ => .nan
  | _, .nan => .nan
  | .posInf, .posInf => .nan
  | .posInf, .negInf => .nan
  | .negInf, .posInf => .nan
  | .negInf, .negInf => .nan
  | .posInf, .num b => if 0 ≤ b then .posInf else .negInf
  | .negInf, .num b => if 0 ≤ b then .negInf else .posInf
  | .num _, .posInf => .num 0
  | .num _, .negInf => .num 0

/-- JS `Math.min(a, b)`. -/
def jsMinV : JSVal → JSVal → JSVal
  | .nan, _ => .nan
  | _, .nan => .nan
  | .num x, .num y => .num (min x y)
  | .posInf, v => v
  | v, .posInf => v
  | .negInf, _ => .negInf
  | _, .negInf => .negInf

/-- JS truthiness fallback `v || 0`: 0 and NaN are falsy. -/
def jsOrZero : JSVal → JSVal
  | .num x => if x = 0 then .num 0 else .num x
  | .nan => .num 0
  | v => v

/-- JS comparison `v > 0` (NaN compares false). -/
def jsGtZero : JSVal → Bool
  | .num x => decide (0 < x)
  | .posInf => true
  | _ => false

/-! ### `RAGService.retrieveRelevantChunks`
(src/src/services/ragService.ts, lines 144-210)

The query embedding is passed in as `qEmb` (the embedder's output for
the query text); the corpus scan result (the SQL join over
`document_chunks` and `documents`, embeddings non-null) is the list
`rows` in the order the database returns them. -/

/-- A row of the retrieval scan.  The `chunk_metadata` / `doc_metadata`
JSON blobs are omitted: the code only passes them through opaquely. -/
structure ChunkRowR where
  chunkid : Nat
  documentid : Nat
  chunk_text : Str
  chunk_index : Nat
  embedding : Vec
  documenttitle : Str
  author : Option Str
  deriving DecidableEq, Repr

/-- A `RetrievalResult` as built by the scoring loop.  Its `metadata`
object is represented by the `author` field (the only part later read;
the code's `metadata.documentType` lookup is always undefined since
only `author`, `chunkMetadata`, `docMetadata` are set). -/
structure RetrievalResult where
  chunkId : Nat
  documentId : Nat
  documentTitle : Str
  chunkText : Str
  chunkIndex : Nat
  relevanceScore : JSVal
  author : Option Str
  deriving DecidableEq, Repr

/-- `MIN_RELEVANCE_SCORE` (0.3, float value idealized as 3/10). -/
def minRelevance : ℚ := 3 / 10

/-- The scoring loop: per row, compute the cosine similarity against
the query embedding (a dimension mismatch throws out of the whole
function) and keep the row iff `similarity >= MIN_RELEVANCE_SCORE`,
in scan order. -/
def scoreRows (sqrtq : ℚ → ℚ) (qEmb : Vec) : List ChunkRowR →
    Except String (List RetrievalResult)
  | [] => .ok []
  | row :: rest =>
    match cosineSimilarity sqrtq qEmb row.embedding with
    | .error e => .error e
    | .ok sim =>
      match scoreRows sqrtq qEmb rest with
      | .error e => .error e
      | .ok tail =>
        if jsGe sim minRelevance then
          .ok ({ chunkId := row.chunkid, documentId := row.documentid,
                 documentTitle := row.documenttitle, chunkText := row.chunk_text,
                 chunkIndex := row.chunk_index, relevanceScore := sim,
                 author := row.author } :: tail)
        else .ok tail

/-- One insertion step of the stable sort with the comparator
`(a, b) => b.relevanceScore - a.relevanceScore`: the element `x` is
placed after `y` exactly when the comparator value `y.rel - x.rel` is
positive. -/
def insertByRel (x : RetrievalResult) : List RetrievalResult → List RetrievalResult
  | [] => [x]
  | y :: ys =>
    if jsGtZero (jsSub y.relevanceScore x.relevanceScore) then y :: insertByRel x ys
    else x :: y :: ys

/-- The stable `Array.prototype.sort` with the descending-relevance
comparator, modelled as stable insertion sort (equal elements keep
their scan order, as ES2019 requires). -/
def sortByRelDesc : List RetrievalResult → List RetrievalResult
  | [] => []
  | x :: xs => insertByRel x (sortByRelDesc xs)

/-- `RAGService.retrieveRelevantChunks` (`TOP_K` passed explicitly,
default 5 at call sites). -/
def retrieveRelevantChunks (sqrtq : ℚ → ℚ) (qEmb : Vec) (rows : List ChunkRowR)
    (topK : Nat) : Except String (List RetrievalResult) :=
  if rows.length = 0 then .ok []
  else
    match scoreRows sqrtq qEmb rows with
    | .error e => .error e
    | .ok results => .ok ((sortByRelDesc results).take topK)

/-- The order the sorted list satisfies between an earlier and a later
element: the comparator does not demand swapping them. -/
def relDescOrder (a b : RetrievalResult) : Prop :=
  jsGtZero (jsSub b.relevanceScore a.relevanceScore) = false

theorem jsGtZero_sub_asymm {a b : JSVal} (h : jsGtZero (jsSub a b) = true) :
    jsGtZero (jsSub b a) = false := by
  cases a <;> cases b <;> simp [jsSub, jsGtZero] at h ⊢ <;> linarith

theorem jsGtZero_sub_self (v : JSVal) : jsGtZero (jsSub v v) = false := by
  cases v <;> simp [jsSub, jsGtZero]

/-- A relevance value that can survive the `>= minScore` filter. -/
def relOK (v : JSVal) : Prop := (∃ x : ℚ, v = .num x) ∨ v = .posInf

theorem relOK_of_jsGe {v : JSVal} {c : ℚ} (h : jsGe v c = true) : relOK v := by
  cases v with
  | num x => exact Or.inl ⟨x, rfl⟩
  | nan => simp [jsGe] at h
  | posInf => exact Or.inr rfl
  | negInf => simp [jsGe] at h

theorem notGt_trans {a b c : JSVal} (ha : relOK a) (hb : relOK b) (hc : relOK c)
    (h1 : jsGtZero (jsSub b a) = false) (h2 : jsGtZero (jsSub c b) = false) :
    jsGtZero (jsSub c a) = false := by
  rcases ha with ⟨x, rfl⟩ | rfl <;> rcases hb with ⟨y, rfl⟩ | rfl <;>
    rcases hc with ⟨z, rfl⟩ | rfl <;>
    simp [jsSub, jsGtZero] at h1 h2 ⊢ <;> linarith

theorem insertByRel_perm (x : RetrievalResult) (l : List RetrievalResult) :
    List.Perm (insertByRel x l) (x :: l) := by
  induction l with
  | nil => rfl
  | cons y ys ih =>
    rw [insertByRel]
    split
    · exact (List.Perm.cons y ih).trans (List.Perm.swap x y ys)
    · rfl

theorem sortByRelDesc_perm (l : List RetrievalResult) :
    List.Perm (sortByRelDesc l) l := by
  induction l with
  | nil => rfl
  | cons x xs ih =>
    rw [sortByRelDesc]
    exact (insertByRel_perm x (sortByRelDesc xs)).trans (List.Perm.cons x ih)

theorem insertByRel_pairwise {x : RetrievalResult} {l : List RetrievalResult}
    (hx : relOK x.relevanceScore) (hl : ∀ y ∈ l, relOK y.relevanceScore)
    (h : List.Pairwise relDescOrder l) :
    List.Pairwise relDescOrder (insertByRel x l) := by
  induction l with
  | nil => simp [insertByRel, List.pairwise_cons]
  | cons y ys ih =>
    rw [insertByRel]
    split
    · rename_i hcond
      rw [List.pairwise_cons]
      constructor
      · intro z hz
        rcases List.mem_cons.1 ((insertByRel_perm x ys).mem_iff.1 hz) with rfl | hz'
        · exact jsGtZero_sub_asymm hcond
        · exact (List.pairwise_cons.1 h).1 z hz'
      · exact ih (fun z hz => hl z (List.mem_cons_of_mem _ hz)) (List.pairwise_cons.1 h).2
    · rename_i hcond
      rw [List.pairwise_cons]
      constructor
      · intro z hz
        rcases List.mem_cons.1 hz with rfl | hz'
        · show jsGtZero (jsSub z.relevanceScore x.relevanceScore) = false
          simpa using hcond
        · refine notGt_trans hx (hl y (List.mem_cons_self _ _))
            (hl z (List.mem_cons_of_mem _ hz')) ?_
            ((List.pairwise_cons.1 h).1 z hz')
          show jsGtZero (jsSub y.relevanceScore x.relevanceScore) = false
          simpa using hcond
      · exact h

theorem sortByRelDesc_pairwise {l : List RetrievalResult}
    (hl : ∀ y ∈ l, relOK y.relevanceScore) :
    List.Pairwise relDescOrder (sortByRelDesc l) := by
  induction l with
  | nil => exact List.Pairwise.nil
  | cons x xs ih =>
    rw [sortByRelDesc]
    refine insertByRel_pairwise (hl x (List.mem_cons_self _ _)) ?_ ?_
    · intro y hy
      exact hl y (List.mem_cons_of_mem _ ((sortByRelDesc_perm xs).subset hy))
    · exact ih (fun y hy => hl y (List.mem_cons_of_mem _ hy))

theorem insertByRel_filter_rel (x : RetrievalResult) (l : List RetrievalResult)
    (v : JSVal) :
    (insertByRel x l).filter (fun r => decide (r.relevanceScore = v)) =
      if x.relevanceScore = v then
        x :: l.filter (fun r => decide (r.relevanceScore = v))
      else l.filter (fun r => decide (r.relevanceScore = v)) := by
  induction l with
  | nil =>
    rw [insertByRel]
    by_cases hx : x.relevanceScore = v
    · rw [if_pos hx]
      simp [List.filter_cons, hx]
    · rw [if_neg hx]
      simp [List.filter_cons, hx]
  | cons y ys ih =>
    rw [insertByRel]
    by_cases hcond : jsGtZero (jsSub y.relevanceScore x.relevanceScore) = true
    · rw [if_pos hcond]
      have hne : y.relevanceScore ≠ x.relevanceScore := by
        intro hc
        rw [hc, jsGtZero_sub_self] at hcond
        exact absurd hcond (by simp)
      by_cases hy : y.relevanceScore = v
      · by_cases hx : x.relevanceScore = v
        · exact absurd (hy.trans hx.symm) hne
        · rw [if_neg hx]
          simp only [List.filter_cons]
          rw [ih, if_neg hx]
          try simp [hy]
      · by_cases hx : x.relevanceScore = v
        · rw [if_pos hx]
          simp only [List.filter_cons]
          rw [ih, if_pos hx]
          try simp [hy]
        · rw [if_neg hx]
          simp only [List.filter_cons]
          rw [ih, if_neg hx]
          try simp [hy]
    · rw [if_neg hcond]
      by_cases hx : x.relevanceScore = v
      · rw [if_pos hx]
        simp [List.filter_cons, hx]
      · rw [if_neg hx]
        simp [List.filter_cons, hx]

theorem sortByRelDesc_filter_rel (l : List RetrievalResult) (v : JSVal) :
    (sortByRelDesc l).filter (fun r => decide (r.relevanceScore = v)) =
      l.filter (fun r => decide (r.relevanceScore = v)) := by
  induction l with
  | nil => rfl
  | cons x xs ih =>
    rw [sortByRelDesc, insertByRel_filter_rel]
    split
    · rename_i hx
      rw [ih]
      simp [List.filter_cons, hx]
    · rename_i hx
      rw [ih]
      simp [List.filter_cons, hx]

theorem scoreRows_ge {sqrtq : ℚ → ℚ} {qEmb : Vec} :
    ∀ {rows : List ChunkRowR} {res : List RetrievalResult},
      scoreRows sqrtq qEmb rows = .ok res →
      ∀ r ∈ res, jsGe r.relevanceScore minRelevance = true := by
  intro rows
  induction rows with
  | nil =>
    intro res h
    rw [scoreRows] at h
    injection h with h
    subst h
    simp
  | cons row rest ih =>
    intro res h
    rw [scoreRows] at h
    cases hcos : cosineSimilarity sqrtq qEmb row.embedding with
    | error e => rw [hcos] at h; simp at h
    | ok sim =>
      simp only [hcos] at h
      cases htail : scoreRows sqrtq qEmb rest with
      | error e => rw [htail] at h; simp at h
      | ok tail =>
        simp only [htail] at h
        by_cases hge : jsGe sim minRelevance = true
        · rw [if_pos hge] at h
          injection h with h
          subst h
          intro r hr
          rcases List.mem_cons.1 hr with rfl | hr'
          · exact hge
          · exact ih htail r hr'
        · rw [if_neg hge] at h
          injection h with h
          subst h
          exact ih htail

/-- Claim C4 counterexample: retrieval does not tie-break by document
id.  Two chunks with identical embeddings (hence identical scores) are
returned in scan order: document 2 before document 1.  The claimed
ordering (doc id ascending, then chunk index ascending, on ties) fails
on this output. -/
theorem claim4_counterexample :
    retrieveRelevantChunks (fun q => q) [(1 : ℚ)]
        [⟨10, 2, ['x'], 0, [(1 : ℚ)], ['T'], none⟩,
         ⟨11, 1, ['y'], 0, [(1 : ℚ)], ['T'], none⟩] 5 =
      .ok [⟨10, 2, ['T'], ['x'], 0, .num 1, none⟩,
           ⟨11, 1, ['T'], ['y'], 0, .num 1, none⟩] ∧
    ¬ List.Pairwise (fun a b : RetrievalResult =>
        a.relevanceScore = b.relevanceScore →
          a.documentId < b.documentId ∨
            (a.documentId = b.documentId ∧ a.chunkIndex ≤ b.chunkIndex))
      [⟨10, 2, ['T'], ['x'], 0, .num 1, none⟩,
       ⟨11, 1, ['T'], ['y'], 0, .num 1, none⟩] := by
  constructor
  · norm_num [retrieveRelevantChunks, scoreRows, cosineSimilarity, jsDiv, dotProduct,
      normSq, jsGe, minRelevance, sortByRelDesc, insertByRel, jsSub, jsGtZero]
  · intro hpw
    have h := List.rel_of_pairwise_cons hpw (List.mem_cons_self _ _)
    have h2 := h rfl
    simp at h2

/-- Claim C4 (amended): for every query embedding, corpus scan and
`topK`, a successful retrieval returns at most `topK` results, every
result passed the `similarity >= MIN_RELEVANCE_SCORE` test, the
results are sorted non-increasing by `relevanceScore` (no element's
comparator demands a swap with a later one), and ties are returned in
corpus scan order: for each score value, the returned results with
that score form a sublist (order-preserving selection) of the scored
scan, not a document-id-ordered rearrangement. -/
theorem claim4_retrieval_props (sqrtq : ℚ → ℚ) (qEmb : Vec) (rows : List ChunkRowR)
    (topK : Nat) (out : List RetrievalResult)
    (h : retrieveRelevantChunks sqrtq qEmb rows topK = .ok out) :
    out.length ≤ topK ∧
    (∀ r ∈ out, jsGe r.relevanceScore minRelevance = true) ∧
    List.Pairwise relDescOrder out ∧
    ∃ scanned, scoreRows sqrtq qEmb rows = .ok scanned ∧
      ∀ v : JSVal,
        List.Sublist (out.filter (fun r => decide (r.relevanceScore = v)))
          (scanned.filter (fun r => decide (r.relevanceScore = v))) := by
  unfold retrieveRelevantChunks at h
  by_cases hrows : rows.length = 0
  · rw [if_pos hrows] at h
    injection h with h
    subst h
    rw [List.length_eq_zero] at hrows
    subst hrows
    exact ⟨by simp, by simp, List.Pairwise.nil,
      [], rfl, fun v => by simp⟩
  · rw [if_neg hrows] at h
    cases hscore : scoreRows sqrtq qEmb rows with
    | error e => rw [hscore] at h; simp at h
    | ok results =>
      simp only [hscore] at h
      injection h with h
      subst h
      have hmemres : ∀ r ∈ (sortByRelDesc results).take topK, r ∈ results := by
        intro r hr
        exact (sortByRelDesc_perm results).subset
          ((List.take_sublist _ _).subset hr)
      refine ⟨List.length_take_le _ _, ?_, ?_, results, rfl, ?_⟩
      · intro r hr
        exact scoreRows_ge hscore r (hmemres r hr)
      · refine List.Pairwise.sublist (List.take_sublist _ _) ?_
        exact sortByRelDesc_pairwise (fun y hy =>
          relOK_of_jsGe (scoreRows_ge hscore y hy))
      · intro v
        rw [← sortByRelDesc_filter_rel results v]
        exact (List.take_sublist _ _).filter _

/-- Witness for C4 (amended) at a concrete one-row corpus. -/
theorem claim4_witness :
    ([(⟨10, 2, ['T'], ['x'], 0, .num 1, none⟩ : RetrievalResult)].length ≤ 5) ∧
    (∀ r ∈ [(⟨10, 2, ['T'], ['x'], 0, .num 1, none⟩ : RetrievalResult)],
      jsGe r.relevanceScore minRelevance = true) ∧
    List.Pairwise relDescOrder [(⟨10, 2, ['T'], ['x'], 0, .num 1, none⟩ : RetrievalResult)] ∧
    ∃ scanned, scoreRows (fun q => q) [(1 : ℚ)] [⟨10, 2, ['x'], 0, [(1 : ℚ)], ['T'], none⟩] =
        .ok scanned ∧
      ∀ v : JSVal,
        List.Sublist
          ([(⟨10, 2, ['T'], ['x'], 0, .num 1, none⟩ : RetrievalResult)].filter
            (fun r => decide (r.relevanceScore = v)))
          (scanned.filter (fun r => decide (r.relevanceScore = v))) :=
  claim4_retrieval_props (fun q => q) [(1 : ℚ)]
    [⟨10, 2, ['x'], 0, [(1 : ℚ)], ['T'], none⟩] 5
    [⟨10, 2, ['T'], ['x'], 0, .num 1, none⟩]
    (by norm_num [retrieveRelevantChunks, scoreRows, cosineSimilarity, jsDiv, dotProduct,
      normSq, jsGe, minRelevance, sortByRelDesc, insertByRel, jsSub, jsGtZero])

/-! ### `RAGService.answerQuestion`
(src/src/services/ragService.ts, lines 215-321)

The generative model is the oracle `gen` (prompt text to answer text);
`Number.toFixed(1)` (float formatting) is the oracle `fmt`; the query
embedding is `qEmb` as before. -/

/-- A decimal digit, `[0-9]`. -/
def isDigitCh (c : Char) : Bool := '0' ≤ c && c ≤ '9'

/-- Anchored match of `/\[SOURCE \d+\]/` at the head: the literal
prefix, one or more digits, then `]` (backtracking cannot shorten the
digit run, since no digit is `]`). -/
def citationAt : Str → Bool
  | '[' :: 'S' :: 'O' :: 'U' :: 'R' :: 'C' :: 'E' :: ' ' :: rest =>
    decide (1 ≤ (rest.takeWhile isDigitCh).length) &&
      (match (rest.drop (rest.takeWhile isDigitCh).length).head? with
       | some c => c = ']'
       | none => false)
  | _ => false

/-- The citation test `/\[SOURCE \d+\]/.test(answer)`. -/
def hasCitations (l : Str) : Bool := l.tails.any citationAt

/-- The fixed retrieval-empty fallback answer. -/
def fallbackAnswer : Str :=
  ("I couldn\x27t find any relevant information in the uploaded onboarding " ++
   "documents to answer your question. Please ensure the relevant materials " ++
   "have been uploaded in the Admin section, or try rephrasing your question.").toList

/-- The post-hoc missing-citation note (with the `\n\n` the code
prepends when appending it). -/
def noCitationsNote : Str :=
  "\n\n(Note: This answer is based on the uploaded onboarding documents.)".toList

/-- Decimal rendering of a source number. -/
def natStr (n : Nat) : Str := (Nat.repr n).toList

/-- One source context block: the `[SOURCE i: "title" ...]` header line
followed by the chunk text.  The `documentType` suffix is always empty
because the code reads `chunk.metadata?.documentType`, which the
retrieval loop never sets. -/
def sourceBlock (fmt : JSVal → Str) (idx : Nat) (chunk : RetrievalResult) : Str :=
  "[SOURCE ".toList ++ natStr (idx + 1) ++ ": \"".toList ++ chunk.documentTitle ++
  "\"".toList ++
  (match chunk.author with
   | some a => " by ".toList ++ a
   | none => []) ++
  " - Section ".toList ++ natStr (chunk.chunkIndex + 1) ++
  " (Relevance: ".toList ++ fmt (jsMul chunk.relevanceScore (.num 100)) ++
  "%)]\n".toList ++ chunk.chunkText

/-- The fixed grounding instructions preceding the context. -/
def promptIntro : Str :=
  ("You are an AI assistant helping new interns during their onboarding " ++
   "process at their company. Your role is to answer questions based " ++
   "EXCLUSIVELY on the provided onboarding documents uploaded by administrators.\n\n" ++
   "CRITICAL INSTRUCTIONS - ANSWER GROUNDING:\n" ++
   "- Answer using ONLY information explicitly stated in the context below\n" ++
   "- DO NOT use external knowledge, make assumptions, or add information " ++
   "not present in the documents\n" ++
   "- If the answer is not in the provided context, respond EXACTLY: " ++
   "\"This information is not available in the current onboarding materials. " ++
   "Please contact HR or your manager for clarification.\"\n" ++
   "- ALWAYS cite your sources using the format [SOURCE X] when referencing information\n" ++
   "- Include multiple source citations when information comes from different documents\n" ++
   "- Quote or paraphrase relevant passages accurately\n" ++
   "- If multiple sources provide related information, synthesize them " ++
   "coherently while maintaining accuracy\n" ++
   "- Maintain a helpful, professional, and friendly tone suitable for new interns\n\n" ++
   "ANSWER QUALITY GUIDELINES:\n" ++
   "- Be specific and concrete - avoid vague statements\n" ++
   "- Provide actionable information when possible\n" ++
   "- If procedures or policies are mentioned, include relevant details\n" ++
   "- Structure your answer clearly with bullet points or paragraphs as appropriate\n" ++
   "- Keep answers concise but comprehensive (2-4 paragraphs typically)\n\n" ++
   "CONTEXT FROM UPLOADED ONBOARDING DOCUMENTS:\n").toList

/-- The fixed text between the question and the answer slot. -/
def promptTail : Str :=
  ("\n\nPlease provide a clear, accurate answer based solely on the above " ++
   "sources. Remember to include [SOURCE X] citations throughout your " ++
   "response.\n\nANSWER:").toList

/-- The full grounding prompt: instructions, source blocks joined by
`\n\n---\n\n`, then the user question. -/
def buildPrompt (fmt : JSVal → Str) (question : Str)
    (relevantChunks : List RetrievalResult) : Str :=
  promptIntro ++
  List.intercalate "\n\n---\n\n".toList
    (relevantChunks.enum.map (fun p => sourceBlock fmt p.1 p.2)) ++
  "\n\nUSER QUESTION: ".toList ++ question ++ promptTail

/-- The answer record returned to the caller. -/
structure RAGResponse where
  answer : Str
  sources : List RetrievalResult
  confidence : JSVal
  deriving DecidableEq, Repr

/-- `RAGService.answerQuestion`: retrieve (TOP_K = 5), fall back on an
empty retrieval, otherwise generate from the grounding prompt, append
the fixed note when no `[SOURCE n]` citation is present, and compute
the confidence `min((avg*0.5 + top*0.5) * (1.1 if cited), 1.0)`. -/
def answerQuestion (sqrtq : ℚ → ℚ) (fmt : JSVal → Str) (gen : Str → Str)
    (question : Str) (qEmb : Vec) (rows : List ChunkRowR) :
    Except String RAGResponse :=
  match retrieveRelevantChunks sqrtq qEmb rows 5 with
  | .error e => .error e
  | .ok relevantChunks =>
    if relevantChunks.length = 0 then
      .ok { answer := fallbackAnswer, sources := [], confidence := .num 0 }
    else
      let answer0 := gen (buildPrompt fmt question relevantChunks)
      let hasCit := hasCitations answer0
      let answer :=
        if hasCit = false ∧ 0 < relevantChunks.length then answer0 ++ noCitationsNote
        else answer0
      let sumRel := relevantChunks.foldl (fun acc c => jsAdd acc c.relevanceScore) (.num 0)
      let avgRelevance := jsDivV sumRel (.num relevantChunks.length)
      let topRelevance :=
        match relevantChunks.head? with
        | some c => jsOrZero c.relevanceScore
        | none => .num 0
      let conf0 := jsAdd (jsMul avgRelevance (.num (1 / 2))) (jsMul topRelevance (.num (1 / 2)))
      let conf1 := if hasCit then jsMul conf0 (.num (11 / 10)) else conf0
      .ok { answer := answer, sources := relevantChunks,
            confidence := jsMinV conf1 (.num 1) }

/-- Claim C9: with a non-empty sources list, if the generated answer
contains no `[SOURCE <digits>]` substring, the fixed note is appended
and the answer is not otherwise rewritten; hence the returned answer
either contains a citation or ends with the note. -/
theorem claim9_citation_note (sqrtq : ℚ → ℚ) (fmt : JSVal → Str) (gen : Str → Str)
    (question : Str) (qEmb : Vec) (rows : List ChunkRowR) (res : RAGResponse)
    (h : answerQuestion sqrtq fmt gen question qEmb rows = .ok res)
    (hne : res.sources ≠ []) :
    (hasCitations (gen (buildPrompt fmt question res.sources)) = true →
      res.answer = gen (buildPrompt fmt question res.sources)) ∧
    (hasCitations (gen (buildPrompt fmt question res.sources)) = false →
      res.answer = gen (buildPrompt fmt question res.sources) ++ noCitationsNote) ∧
    (hasCitations res.answer = true ∨ noCitationsNote <:+ res.answer) := by
  unfold answerQuestion at h
  cases hret : retrieveRelevantChunks sqrtq qEmb rows 5 with
  | error e => rw [hret] at h; simp at h
  | ok relevantChunks =>
    simp only [hret] at h
    by_cases hlen : relevantChunks.length = 0
    · rw [if_pos hlen] at h
      injection h with h
      subst h
      simp at hne
    · rw [if_neg hlen] at h
      injection h with h
      subst h
      simp only
      by_cases hcit : hasCitations (gen (buildPrompt fmt question relevantChunks)) = true
      · rw [if_neg (by simp [hcit])]
        refine ⟨fun _ => rfl, fun hcon => absurd hcit (by simp [hcon]), Or.inl hcit⟩
      · rw [if_pos ⟨by simpa using hcit, by omega⟩]
        refine ⟨fun hcon => absurd hcon hcit, fun _ => rfl, Or.inr (List.suffix_append _ _)⟩

/-- Evaluation of `answerQuestion` on a concrete one-row corpus with a
constant generator whose output "hi" carries no citation: the note is
appended and the confidence is 1. -/
theorem answer_concrete_run :
    answerQuestion (fun q => q) (fun _ => []) (fun _ => ['h', 'i'])
      ['q'] [(1 : ℚ)] [⟨10, 2, ['x'], 0, [(1 : ℚ)], ['T'], none⟩] =
    .ok ⟨['h', 'i'] ++ noCitationsNote,
      [⟨10, 2, ['T'], ['x'], 0, .num 1, none⟩], .num 1⟩ := by
  have hret : retrieveRelevantChunks (fun q => q) [(1 : ℚ)]
      [⟨10, 2, ['x'], 0, [(1 : ℚ)], ['T'], none⟩] 5 =
      .ok [⟨10, 2, ['T'], ['x'], 0, .num 1, none⟩] := by
    norm_num [retrieveRelevantChunks, scoreRows, cosineSimilarity, jsDiv,
      dotProduct, normSq, jsGe, minRelevance, sortByRelDesc, insertByRel]
  have hcit : hasCitations (['h', 'i'] : Str) = false := by decide
  simp only [answerQuestion, hret]
  norm_num [hcit, jsAdd, jsDivV, jsDiv, jsMul, jsOrZero, jsMinV, List.foldl]

/-- Witness for C9 at a concrete one-row corpus with a constant
generator whose output "hi" has no citation. -/
theorem claim9_witness :
    (hasCitations (['h', 'i'] : Str) = true →
      (['h', 'i'] ++ noCitationsNote : Str) = ['h', 'i']) ∧
    (hasCitations (['h', 'i'] : Str) = false →
      (['h', 'i'] ++ noCitationsNote : Str) = ['h', 'i'] ++ noCitationsNote) ∧
    (hasCitations (['h', 'i'] ++ noCitationsNote) = true ∨
      noCitationsNote <:+ (['h', 'i'] ++ noCitationsNote)) :=
  claim9_citation_note (fun q => q) (fun _ => []) (fun _ => ['h', 'i'])
    ['q'] [(1 : ℚ)] [⟨10, 2, ['x'], 0, [(1 : ℚ)], ['T'], none⟩]
    ⟨['h', 'i'] ++ noCitationsNote, [⟨10, 2, ['T'], ['x'], 0, .num 1, none⟩], .num 1⟩
    answer_concrete_run
    (by simp)

/-! ### Confidence arithmetic (claim C8) -/

/-- The rational carried by a finite JS value (0 on the non-finite
ones, which the confidence path never produces). -/
def relQ : JSVal → ℚ
  | .num x => x
  | _ => 0

/-- Arithmetic mean of the relevance scores of a source list (0 when
the list is empty, by rational division by zero). -/
def relMean (rs : List RetrievalResult) : ℚ :=
  (rs.map (fun r => relQ r.relevanceScore)).sum / rs.length

/-- Maximum of the relevance scores of a source list (0 when empty;
the scores are all positive on the retrieval path). -/
def relMax (rs : List RetrievalResult) : ℚ :=
  (rs.map (fun r => relQ r.relevanceScore)).foldr max 0

/-- Clamp a rational to the unit interval. -/
def clamp01 (q : ℚ) : ℚ := min 1 (max 0 q)

/-- With a square-root oracle that is zero at zero and positive on
positives, the cosine similarity of equal-length vectors is a finite
number or NaN, never an infinity: a zero denominator forces a zero
numerator. -/
theorem cos_num_or_nan {sqrtq : ℚ → ℚ} (hsq0 : sqrtq 0 = 0)
    (hpos : ∀ x : ℚ, 0 < x → 0 < sqrtq x) {v w : Vec} {r : JSVal}
    (h : cosineSimilarity sqrtq v w = .ok r) :
    r = .nan ∨ ∃ x : ℚ, r = .num x := by
  rw [cosineSimilarity] at h
  by_cases hlen : v.length ≠ w.length
  · rw [if_pos hlen] at h; simp at h
  · rw [if_neg hlen] at h
    injection h with h
    subst h
    by_cases hden : sqrtq (normSq v) * sqrtq (normSq w) = 0
    · have hzero : dotProduct v w = 0 := by
        rcases mul_eq_zero.1 hden with h0 | h0
        · rcases lt_or_eq_of_le (normSq_nonneg v) with hlt | heq
          · exact absurd h0 (ne_of_gt (hpos _ hlt))
          · exact dotProduct_zero_left (all_zero_of_normSq_eq_zero heq.symm)
        · rcases lt_or_eq_of_le (normSq_nonneg w) with hlt | heq
          · exact absurd h0 (ne_of_gt (hpos _ hlt))
          · exact dotProduct_zero_right (all_zero_of_normSq_eq_zero heq.symm)
      left
      simp [jsDiv, hden, hzero]
    · right
      exact ⟨dotProduct v w / (sqrtq (normSq v) * sqrtq (normSq w)),
        by simp [jsDiv, hden]⟩

/-- With the square-root hypotheses, every surviving retrieval score is
a finite number at least `MIN_RELEVANCE_SCORE`. -/
theorem scoreRows_num {sqrtq : ℚ → ℚ} (hsq0 : sqrtq 0 = 0)
    (hpos : ∀ x : ℚ, 0 < x → 0 < sqrtq x) {qEmb : Vec} :
    ∀ {rows : List ChunkRowR} {res : List RetrievalResult},
      scoreRows sqrtq qEmb rows = .ok res →
      ∀ r ∈ res, ∃ x : ℚ, r.relevanceScore = .num x ∧ minRelevance ≤ x := by
  intro rows
  induction rows with
  | nil =>
    intro res h
    rw [scoreRows] at h
    injection h with h
    subst h
    simp
  | cons row rest ih =>
    intro res h
    rw [scoreRows] at h
    cases hcos : cosineSimilarity sqrtq qEmb row.embedding with
    | error e => rw [hcos] at h; simp at h
    | ok sim =>
      simp only [hcos] at h
      cases htail : scoreRows sqrtq qEmb rest with
      | error e => rw [htail] at h; simp at h
      | ok tail =>
        simp only [htail] at h
        by_cases hge : jsGe sim minRelevance = true
        · rw [if_pos hge] at h
          injection h with h
          subst h
          intro r hr
          rcases List.mem_cons.1 hr with rfl | hr'
          · rcases cos_num_or_nan hsq0 hpos hcos with rfl | ⟨x, rfl⟩
            · simp [jsGe] at hge
            · exact ⟨x, rfl, by simpa [jsGe] using hge⟩
          · exact ih htail r hr'
        · rw [if_neg hge] at h
          injection h with h
          subst h
          exact ih htail

/-- Folding JS addition over finite scores from a finite start is the
rational sum. -/
theorem foldl_jsAdd_num :
    ∀ (rs : List RetrievalResult),
      (∀ r ∈ rs, ∃ x : ℚ, r.relevanceScore = .num x) → ∀ a : ℚ,
      rs.foldl (fun acc c => jsAdd acc c.relevanceScore) (.num a) =
        .num (a + (rs.map (fun r => relQ r.relevanceScore)).sum) := by
  intro rs
  induction rs with
  | nil => intro _ a; simp
  | cons r rest ih =>
    intro hall a
    obtain ⟨x, hx⟩ := hall r (List.mem_cons_self r rest)
    have hrec := ih (fun s hs => hall s (List.mem_cons_of_mem r hs)) (a + x)
    rw [List.foldl_cons]
    show List.foldl (fun acc c => jsAdd acc c.relevanceScore)
        (jsAdd (JSVal.num a) r.relevanceScore) rest = _
    rw [hx]
    show List.foldl _ (JSVal.num (a + x)) rest = _
    rw [hrec, List.map_cons, List.sum_cons]
    congr 1
    rw [hx]
    show a + x + _ = a + (x + _)
    ring

/-- An upper bound of a rational list (nonnegative) bounds its
`foldr max 0`. -/
theorem foldr_max_le {l : List ℚ} {x : ℚ} (hub : ∀ y ∈ l, y ≤ x) (h0 : 0 ≤ x) :
    l.foldr max 0 ≤ x := by
  induction l with
  | nil => simpa
  | cons a t ih =>
    simp only [List.foldr_cons]
    exact max_le (hub a (List.mem_cons_self a t))
      (ih (fun y hy => hub y (List.mem_cons_of_mem a hy)))

/-- Every member of a rational list is at most its `foldr max 0`. -/
theorem le_foldr_max {l : List ℚ} {x : ℚ} (hx : x ∈ l) :
    x ≤ l.foldr max 0 := by
  induction l with
  | nil => simp at hx
  | cons a t ih =>
    simp only [List.foldr_cons]
    rcases List.mem_cons.1 hx with rfl | hx'
    · exact le_max_left _ _
    · exact le_trans (ih hx') (le_max_right _ _)

/-- Every member of a rational list with lower bound `c` makes the sum
at least `c` times the length. -/
theorem sum_ge_const_mul {c : ℚ} :
    ∀ {l : List ℚ}, (∀ y ∈ l, c ≤ y) → c * l.length ≤ l.sum := by
  intro l
  induction l with
  | nil => intro _; simp
  | cons a t ih =>
    intro hlb
    have h1 := hlb a (List.mem_cons_self a t)
    have h2 := ih (fun y hy => hlb y (List.mem_cons_of_mem a hy))
    simp only [List.sum_cons, List.length_cons]
    push_cast
    linarith

/-- The head of a `relDescOrder`-sorted list of finite scores realizes
the maximum score. -/
theorem head_relMax {c : RetrievalResult} {cs : List RetrievalResult}
    (hall : ∀ r ∈ c :: cs, ∃ x : ℚ, r.relevanceScore = .num x ∧ minRelevance ≤ x)
    (hpair : List.Pairwise relDescOrder (c :: cs)) :
    relMax (c :: cs) = relQ c.relevanceScore := by
  obtain ⟨x0, hx0, hge0⟩ := hall c (List.mem_cons_self c cs)
  have hx0q : relQ c.relevanceScore = x0 := by rw [hx0]; rfl
  rw [relMax, hx0q]
  have hub : ∀ y ∈ (c :: cs).map (fun r => relQ r.relevanceScore), y ≤ x0 := by
    intro y hy
    rcases List.mem_map.1 hy with ⟨r, hr, rfl⟩
    rcases List.mem_cons.1 hr with rfl | hr'
    · rw [hx0q]
    · obtain ⟨xr, hxr, _⟩ := hall r (List.mem_cons_of_mem c hr')
      have hord := (List.pairwise_cons.1 hpair).1 r hr'
      rw [relDescOrder, hxr, hx0] at hord
      simp only [jsSub, jsGtZero, decide_eq_false_iff_not, not_lt, sub_nonpos] at hord
      rw [hxr]
      exact hord
  have hmem : x0 ∈ (c :: cs).map (fun r => relQ r.relevanceScore) :=
    List.mem_map.2 ⟨c, List.mem_cons_self c cs, hx0q⟩
  have h03 : (0 : ℚ) ≤ x0 := le_trans (by norm_num [minRelevance]) hge0
  exact le_antisymm (foldr_max_le hub h03) (le_foldr_max hmem)

/-- Claim C8: the returned confidence is
`clamp01((0.5*mean + 0.5*max) * (1.1 if the generated answer has a
citation))`; it lies in `[0, 1]`; and it is zero exactly when the
sources list is empty.  The square-root oracle is assumed zero at zero
and positive on positives (as `Math.sqrt` is). -/
theorem claim8_confidence (sqrtq : ℚ → ℚ) (fmt : JSVal → Str) (gen : Str → Str)
    (question : Str) (qEmb : Vec) (rows : List ChunkRowR) (res : RAGResponse)
    (hsq0 : sqrtq 0 = 0) (hpos : ∀ x : ℚ, 0 < x → 0 < sqrtq x)
    (h : answerQuestion sqrtq fmt gen question qEmb rows = .ok res) :
    res.confidence = .num (clamp01
      ((1 / 2 * relMean res.sources + 1 / 2 * relMax res.sources) *
        (if hasCitations (gen (buildPrompt fmt question res.sources)) then
          11 / 10 else 1))) ∧
    (∃ q : ℚ, res.confidence = .num q ∧ 0 ≤ q ∧ q ≤ 1) ∧
    (res.confidence = .num 0 ↔ res.sources = []) := by
  unfold answerQuestion at h
  cases hret : retrieveRelevantChunks sqrtq qEmb rows 5 with
  | error e => rw [hret] at h; simp at h
  | ok out =>
    simp only [hret] at h
    by_cases hlen : out.length = 0
    · rw [if_pos hlen] at h
      injection h with h
      subst h
      refine ⟨?_, ⟨0, rfl, le_refl 0, by norm_num⟩, by simp⟩
      simp [relMean, relMax, clamp01]
    · rw [if_neg hlen] at h
      injection h with h
      subst h
      simp only
      have hall : ∀ r ∈ out, ∃ x : ℚ, r.relevanceScore = .num x ∧ minRelevance ≤ x := by
        rw [retrieveRelevantChunks] at hret
        by_cases hrows : rows.length = 0
        · rw [if_pos hrows] at hret
          injection hret with hret
          subst hret
          simp at hlen
        · rw [if_neg hrows] at hret
          cases hscore : scoreRows sqrtq qEmb rows with
          | error e => rw [hscore] at hret; simp at hret
          | ok results =>
            simp only [hscore] at hret
            injection hret with hret
            intro r hr
            have hr1 : r ∈ sortByRelDesc results := by
              rw [← hret] at hr
              exact (List.take_sublist _ _).subset hr
            exact scoreRows_num hsq0 hpos hscore r ((sortByRelDesc_perm results).subset hr1)
      have hpair : List.Pairwise relDescOrder out := by
        rw [retrieveRelevantChunks] at hret
        by_cases hrows : rows.length = 0
        · rw [if_pos hrows] at hret
          injection hret with hret
          subst hret
          simp at hlen
        · rw [if_neg hrows] at hret
          cases hscore : scoreRows sqrtq qEmb rows with
          | error e => rw [hscore] at hret; simp at hret
          | ok results =>
            simp only [hscore] at hret
            injection hret with hret
            rw [← hret]
            exact (sortByRelDesc_pairwise
              (fun y hy => relOK_of_jsGe (scoreRows_ge hscore y hy))).sublist
              (List.take_sublist _ _)
      cases hcons : out with
      | nil => rw [hcons] at hlen; simp at hlen
      | cons c cs =>
        rw [hcons] at hall hpair
        obtain ⟨x0, hx0, hge0⟩ := hall c (List.mem_cons_self c cs)
        have hnum : ∀ r ∈ c :: cs, ∃ x : ℚ, r.relevanceScore = .num x :=
          fun r hr => (hall r hr).imp (fun x hx => hx.1)
        have hsum := foldl_jsAdd_num (c :: cs) hnum 0
        set S : ℚ := ((c :: cs).map (fun r => relQ r.relevanceScore)).sum with hS
        have hnpos : (0 : ℚ) < ((c :: cs).length : ℚ) := by
          have h1 : 0 < (c :: cs).length := by simp
          exact_mod_cast h1
        have hn : ((c :: cs).length : ℚ) ≠ 0 := ne_of_gt hnpos
        have havg : jsDivV ((c :: cs).foldl
            (fun acc c => jsAdd acc c.relevanceScore) (.num 0))
            (.num ((c :: cs).length : ℚ)) = .num (S / (c :: cs).length) := by
          rw [hsum, zero_add]
          show jsDiv S ((c :: cs).length : ℚ) = _
          rw [jsDiv, if_neg hn]
        have htop : (match (c :: cs).head? with
            | some c => jsOrZero c.relevanceScore
            | none => JSVal.num 0) = .num x0 := by
          have hx0ne : x0 ≠ 0 := by
            intro h0
            rw [h0] at hge0
            norm_num [minRelevance] at hge0
          simp [hx0, jsOrZero, hx0ne]
        have hmean : relMean (c :: cs) = S / (c :: cs).length := rfl
        have hmax : relMax (c :: cs) = x0 := by
          rw [head_relMax hall hpair, hx0]; rfl
        have hSlb : minRelevance *
            (((c :: cs).map (fun r => relQ r.relevanceScore)).length : ℚ) ≤ S := by
          rw [hS]
          apply sum_ge_const_mul
          intro y hy
          rcases List.mem_map.1 hy with ⟨r, hr, rfl⟩
          obtain ⟨x, hx, hgx⟩ := hall r hr
          rw [hx]
          exact hgx
        rw [List.length_map] at hSlb
        have hmeanlb : minRelevance ≤ S / (c :: cs).length := by
          rw [le_div_iff₀ hnpos]
          exact hSlb
        set B : ℚ := 1 / 2 * (S / (c :: cs).length) + 1 / 2 * x0 with hB
        have hBlb : minRelevance ≤ B := by
          rw [hB]
          linarith
        have hBpos : (0 : ℚ) < B := lt_of_lt_of_le (by norm_num [minRelevance]) hBlb
        have hconf0 : jsAdd (jsMul (.num (S / (c :: cs).length)) (.num (1 / 2)))
            (jsMul (.num x0) (.num (1 / 2))) = .num B := by
          simp only [jsMul, jsAdd, hB]
          ring_nf
        rw [havg, htop, hconf0, hmean, hmax]
        by_cases hcit : hasCitations (gen (buildPrompt fmt question (c :: cs))) = true
        · rw [if_pos hcit, if_pos hcit]
          have hfin : jsMinV (jsMul (.num B) (.num (11 / 10))) (.num 1) =
              .num (min (B * (11 / 10)) 1) := by
            simp [jsMul, jsMinV]
          rw [hfin]
          have hval : clamp01 ((1 / 2 * (S / (c :: cs).length) + 1 / 2 * x0) * (11 / 10)) =
              min (B * (11 / 10)) 1 := by
            rw [clamp01, ← hB, max_eq_right (by positivity), min_comm]
          refine ⟨by rw [hval], ⟨min (B * (11 / 10)) 1, rfl, ?_, min_le_right _ _⟩, ?_⟩
          · exact le_min (by positivity) (by norm_num)
          · constructor
            · intro heq
              have : min (B * (11 / 10)) 1 = 0 := by
                injection heq
              have h1 : (0 : ℚ) < min (B * (11 / 10)) 1 :=
                lt_min (by positivity) (by norm_num)
              rw [this] at h1
              exact absurd h1 (lt_irrefl 0)
            · intro heq; simp at heq
        · rw [if_neg hcit, if_neg hcit]
          have hfin : jsMinV (.num B) (.num 1) = .num (min B 1) := by
            simp [jsMinV]
          rw [hfin]
          have hval : clamp01 ((1 / 2 * (S / (c :: cs).length) + 1 / 2 * x0) * 1) =
              min B 1 := by
            rw [clamp01, mul_one, ← hB, max_eq_right (le_of_lt hBpos), min_comm]
          refine ⟨by rw [hval], ⟨min B 1, rfl, ?_, min_le_right _ _⟩, ?_⟩
          · exact le_min (le_of_lt hBpos) (by norm_num)
          · constructor
            · intro heq
              have : min B 1 = 0 := by injection heq
              have h1 : (0 : ℚ) < min B 1 := lt_min hBpos (by norm_num)
              rw [this] at h1
              exact absurd h1 (lt_irrefl 0)
            · intro heq; simp at heq

/-- Witness for C8 at the same concrete one-row corpus: the score is 1,
no citation, so confidence is `min(1*0.5 + 1*0.5, 1) = 1`. -/
theorem claim8_witness :
    (JSVal.num 1 = .num (clamp01
      ((1 / 2 * relMean [(⟨10, 2, ['T'], ['x'], 0, .num 1, none⟩ : RetrievalResult)] +
        1 / 2 * relMax [(⟨10, 2, ['T'], ['x'], 0, .num 1, none⟩ : RetrievalResult)]) *
        (if hasCitations ((fun _ : Str => (['h', 'i'] : Str))
            (buildPrompt (fun _ => []) ['q']
              [(⟨10, 2, ['T'], ['x'], 0, .num 1, none⟩ : RetrievalResult)])) then
          11 / 10 else 1)))) ∧
    (∃ q : ℚ, JSVal.num 1 = .num q ∧ 0 ≤ q ∧ q ≤ 1) ∧
    (JSVal.num 1 = .num 0 ↔
      ([(⟨10, 2, ['T'], ['x'], 0, .num 1, none⟩ : RetrievalResult)] :
        List RetrievalResult) = []) :=
  claim8_confidence (fun q => q) (fun _ => []) (fun _ => ['h', 'i'])
    ['q'] [(1 : ℚ)] [⟨10, 2, ['x'], 0, [(1 : ℚ)], ['T'], none⟩]
    ⟨['h', 'i'] ++ noCitationsNote, [⟨10, 2, ['T'], ['x'], 0, .num 1, none⟩], .num 1⟩
    rfl (fun x hx => hx)
    answer_concrete_run

/-! ### Ingestion database traces (claims C2 and C3)

`RAGService.processDocument` (src/src/services/ragService.ts, lines
45-140) and `RAGService.reprocessDocument` (lines 407-460) issue a
sequence of single-row SQL statements with no surrounding transaction.
The trace of issued statements is modelled as a list of `DbOp`; the
per-item embedding provider is the oracle `embed` as in
`generateBatchEmbeddings`; the `RETURNING documentid` value of the
document insert is the oracle `docId`. -/

/-- A database write issued by the ingestion paths (only the columns
the claims are about are carried). -/
inductive DbOp where
  | insertDocument (title content : Str)
  | insertChunk (docId : Nat) (text : Str) (idx : Nat) (emb : Vec)
  | deleteChunks (docId : Nat)
  deriving DecidableEq, Repr

/-- The write trace of `processDocument` after a successful parse of
raw text `rawText` (`processPDF` applies `cleanText` and returns the
result with no empty-text check): insert the document row first, then
one `INSERT INTO document_chunks` per loop iteration.  The loop reads
`embeddings[i].values`, so when the (compacted) embedding list is
shorter than the chunk list it throws a `TypeError` at
`i = embeddings.length`, after issuing exactly `min(chunks, embeddings)`
chunk inserts; otherwise it completes with no error. -/
def processDocumentOps (title rawText : Str) (docId : Nat)
    (embed : Str → Option Vec) : List DbOp × Option String :=
  let text := cleanText rawText
  let chunks := chunkText text 512 50
  let embs := generateBatchEmbeddings embed (chunks.map (fun c => c.text))
  (DbOp.insertDocument title text ::
    (chunks.zip embs).map
      (fun p => DbOp.insertChunk docId p.1.text p.1.index p.2.values),
   if chunks.length ≤ embs.length then none
   else some "TypeError: Cannot read properties of undefined")

/-- The write trace of `reprocessDocument` on stored content `content`:
an unconditional `DELETE FROM document_chunks WHERE documentid = $1`
followed by one insert per loop iteration, with the same
`embeddings[i].values` failure mode, and no transaction. -/
def reprocessOps (documentId : Nat) (content : Str)
    (embed : Str → Option Vec) : List DbOp × Option String :=
  let chunks := chunkText content 512 50
  let embs := generateBatchEmbeddings embed (chunks.map (fun c => c.text))
  (DbOp.deleteChunks documentId ::
    (chunks.zip embs).map
      (fun p => DbOp.insertChunk documentId p.1.text p.1.index p.2.values),
   if chunks.length ≤ embs.length then none
   else some "TypeError: Cannot read properties of undefined")

/-- A row of the `document_chunks` table: document id, chunk text,
chunk index. -/
abbrev ChunkRow := Nat × Str × Nat

/-- The `document_chunks` table, in insertion order. -/
abbrev ChunkStore := List ChunkRow

/-- Effect of one issued statement on the chunk table (the document
insert touches only the `documents` table). -/
def applyOp (s : ChunkStore) : DbOp → ChunkStore
  | .insertDocument _ _ => s
  | .insertChunk d t i _ => s ++ [(d, t, i)]
  | .deleteChunks d => s.filter (fun r => decide (r.1 ≠ d))

/-- Effect of a statement sequence; `applyOps s (ops.take k)` is the
table state observable after the first `k` statements. -/
def applyOps (s : ChunkStore) (ops : List DbOp) : ChunkStore :=
  ops.foldl applyOp s

/-- The chunk set of one document in a table state. -/
def chunkRowsOf (d : Nat) (s : ChunkStore) : ChunkStore :=
  s.filter (fun r => decide (r.1 = d))

/-- The chunk row a chunk/embedding pair is inserted as. -/
def rowOf (d : Nat) (p : TextChunk × Embedding) : ChunkRow :=
  (d, p.1.text, p.1.index)

theorem jsTrim_ws_nil {l : Str} (h : ∀ c ∈ l, isWS c = true) : jsTrim l = [] := by
  rw [jsTrim, List.dropWhile_eq_nil_iff.2 h]
  rfl

theorem cleanText_ws_nil {l : Str} (h : ∀ c ∈ l, isWS c = true) : cleanText l = [] := by
  rw [cleanText]
  apply jsTrim_ws_nil
  intro c hc
  have hc2 : c ∈ collapseSpaces (collapseNewlines (replaceCRLF l)) :=
    List.mem_of_mem_filter hc
  rcases mem_stage hc2 with h1 | h1 | h1
  · exact h c h1
  · rw [h1]; rfl
  · rw [h1]; rfl

theorem chunkText_nil : chunkText [] 512 50 = [] := by
  simp [chunkText, splitIntoParagraphs, splitFields, sepLen, lastBelow, subAt,
    jsTrim, isWS, chunkLoop]

/-- Claim C2 counterexample: a whitespace-only parse result is ingested
without any failure.  The trace is a single successful document insert
(with empty `documentcontent`) and no chunk inserts — not the claimed
`ExtractFailed` with no rows written. -/
theorem claim2_counterexample :
    processDocumentOps ['T'] [' ', '\n', '\t'] 7 (fun _ => some [(1 : ℚ)]) =
      ([DbOp.insertDocument ['T'] []], none) := by
  have hclean : cleanText [' ', '\n', '\t'] = [] := by decide
  simp only [processDocumentOps, hclean, chunkText_nil]
  rfl

/-- Claim C2 (amended): on a parse result with no extractable text
(empty or whitespace-only), ingestion does not fail: it writes exactly
one `documents` row (with empty content) and zero chunk rows, and
reports no error. -/
theorem claim2_empty_text (title rawText : Str) (docId : Nat)
    (embed : Str → Option Vec) (h : ∀ c ∈ rawText, isWS c = true) :
    processDocumentOps title rawText docId embed =
      ([DbOp.insertDocument title []], none) := by
  simp only [processDocumentOps, cleanText_ws_nil h, chunkText_nil]
  rfl

/-- Witness for C2 (amended) at a concrete whitespace-only input. -/
theorem claim2_witness :
    processDocumentOps ['T'] [' '] 3 (fun _ => none) =
      ([DbOp.insertDocument ['T'] []], none) :=
  claim2_empty_text ['T'] [' '] 3 (fun _ => none) (by decide)

theorem applyOps_cons (s : ChunkStore) (op : DbOp) (ops : List DbOp) :
    applyOps s (op :: ops) = applyOps (applyOp s op) ops := rfl

theorem chunkRowsOf_inserts (d : Nat) :
    ∀ (ps : List (TextChunk × Embedding)) (s : ChunkStore),
      chunkRowsOf d (applyOps s (ps.map
        (fun p => DbOp.insertChunk d p.1.text p.1.index p.2.values))) =
        chunkRowsOf d s ++ ps.map (rowOf d) := by
  intro ps
  induction ps with
  | nil => intro s; simp [applyOps, chunkRowsOf]
  | cons p rest ih =>
    intro s
    rw [List.map_cons, applyOps_cons, ih]
    show chunkRowsOf d (s ++ [(d, p.1.text, p.1.index)]) ++ _ = _
    rw [chunkRowsOf, List.filter_append]
    simp [chunkRowsOf, rowOf]

theorem chunkRowsOf_delete (d : Nat) (s : ChunkStore) :
    chunkRowsOf d (s.filter (fun r => decide (r.1 ≠ d))) = [] := by
  rw [chunkRowsOf]
  rw [List.filter_filter]
  apply List.filter_eq_nil_iff.2
  intro r hr
  simp

/-- Claim C3: chunk replacement is NOT atomic, but every observable
state is a scan prefix.  After the first `k` statements of a
reprocess trace, the document's chunk set is the old set when `k = 0`
and exactly the first `k - 1` new chunk rows otherwise (so after the
delete, readers see the empty set, then growing partial new sets);
after the first `k` statements of a `processDocument` trace, it is the
prior set extended by the first `k - 1` new chunk rows.  This holds for
every `k`, in particular at the point a mid-loop failure stops the
run. -/
theorem claim3_partial_visibility (documentId : Nat) (content title rawText : Str)
    (embed : Str → Option Vec) (s : ChunkStore) (k : Nat) :
    (chunkRowsOf documentId
        (applyOps s ((reprocessOps documentId content embed).1.take k)) =
      if k = 0 then chunkRowsOf documentId s
      else (((chunkText content 512 50).zip
          (generateBatchEmbeddings embed
            ((chunkText content 512 50).map (fun c => c.text)))).map
          (rowOf documentId)).take (k - 1)) ∧
    (chunkRowsOf documentId
        (applyOps s ((processDocumentOps title rawText documentId embed).1.take k)) =
      chunkRowsOf documentId s ++
        (((chunkText (cleanText rawText) 512 50).zip
          (generateBatchEmbeddings embed
            ((chunkText (cleanText rawText) 512 50).map (fun c => c.text)))).map
          (rowOf documentId)).take (k - 1)) := by
  constructor
  · cases k with
    | zero => simp [applyOps]
    | succ j =>
      simp only [reprocessOps, List.take_succ_cons, applyOps_cons,
        Nat.succ_ne_zero, if_neg, Nat.succ_sub_one]
      rw [← List.map_take, show applyOp s (DbOp.deleteChunks documentId) =
        s.filter (fun r => decide (r.1 ≠ documentId)) from rfl]
      rw [chunkRowsOf_inserts, chunkRowsOf_delete, List.nil_append, List.map_take]
      simp
  · cases k with
    | zero => simp [applyOps]
    | succ j =>
      simp only [processDocumentOps, List.take_succ_cons, applyOps_cons,
        Nat.succ_sub_one]
      rw [← List.map_take, show applyOp s (DbOp.insertDocument title (cleanText rawText)) =
        s from rfl]
      rw [chunkRowsOf_inserts, List.map_take]

/-- Claim C3 counterexample: reprocessing document 7 (one old chunk,
new content "Hello" producing one new chunk) issues a delete and then
an insert with no transaction; the state observable after the delete
holds neither the old chunk set nor the complete new one — a partial
(here empty) chunk set is retrievable. -/
theorem claim3_counterexample :
    (reprocessOps 7 "Hello".toList (fun _ => some [(1 : ℚ)])).1 =
      [DbOp.deleteChunks 7, DbOp.insertChunk 7 "Hello".toList 0 [(1 : ℚ)]] ∧
    applyOps [(7, "old".toList, 0)]
        ((reprocessOps 7 "Hello".toList (fun _ => some [(1 : ℚ)])).1.take 1) = [] ∧
    ([] : ChunkStore) ≠ [(7, "old".toList, 0)] ∧
    ([] : ChunkStore) ≠
      applyOps [(7, "old".toList, 0)]
        (reprocessOps 7 "Hello".toList (fun _ => some [(1 : ℚ)])).1 := by
  have hch : chunkText "Hello".toList 512 50 =
      [⟨"Hello".toList, 0, 2, 0, 5⟩] := by
    simp [chunkText, splitIntoParagraphs, splitFields, sepLen, lastBelow, subAt,
      jsTrim, isWS, chunkLoop, nlnl, ceilDiv4]
  refine ⟨?_, ?_, by simp, ?_⟩
  · simp only [reprocessOps, hch]
    simp [generateBatchEmbeddings, batchResults, embedOrNull, generateEmbedding]
  · simp only [reprocessOps, hch]
    simp [generateBatchEmbeddings, batchResults, embedOrNull, generateEmbedding,
      applyOps, applyOp]
  · simp only [reprocessOps, hch]
    simp [generateBatchEmbeddings, batchResults, embedOrNull, generateEmbedding,
      applyOps, applyOp]

end InterCompass
